import Mathlib

set_option maxHeartbeats 1000000
set_option maxRecDepth 4000

/-!
Verification development for the Roam encrypted-graph migration tool
(`src/roam_migration.py`).  The Python source is shallowly embedded below:
pure string manipulation becomes functions over `List Char`, Python dicts
become insertion-ordered association lists, and the two external
collaborators (the object store's upload outcome and the regex scanner
that locates the four media wrappers inside a block's text) are passed in
as explicit oracles.  All definitions follow the source line by line.
-/

namespace RoamMigration

/-! ## Python dict model: insertion-ordered association list -/

/-- Python `dict` with string keys, as an insertion-ordered association list.
Assignment to an existing key updates the value in place; assignment to a
fresh key appends at the end, matching CPython's ordered-dict semantics. -/
abbrev Dict (β : Type) := List (String × β)

/-- Membership test, `k in d` in Python. -/
def dmem {β : Type} (l : Dict β) (k : String) : Bool :=
  l.any (fun p => p.1 == k)

/-- Lookup, `d[k]` in Python (as an `Option`). -/
def dlookup {β : Type} (l : Dict β) (k : String) : Option β :=
  (l.find? (fun p => p.1 == k)).map (fun p => p.2)

/-- Assignment `d[k] = v` in Python: update in place if the key exists,
append otherwise. -/
def dinsert {β : Type} (l : Dict β) (k : String) (v : β) : Dict β :=
  if dmem l k then l.map (fun p => if p.1 == k then (k, v) else p)
  else l ++ [(k, v)]

/-- Values of the dict, in insertion order. -/
def dvalues {β : Type} (l : Dict β) : List β := l.map (fun p => p.2)

/-! ## String helpers with Python semantics -/

/-- Python `s.lower()` (ASCII inputs). -/
def lowerS (s : String) : String := ⟨s.toList.map Char.toLower⟩

/-- Python `p in s` for a single character. -/
def containsC (s : String) (c : Char) : Bool := s.toList.contains c

/-- Python `s.startswith(p)`. -/
def startsW (s p : String) : Bool := p.toList.isPrefixOf s.toList

/-- Python `s.endswith(p)`. -/
def endsW (s p : String) : Bool := p.toList.isSuffixOf s.toList

/-- Replace every non-overlapping occurrence of the nonempty pattern
`p :: ps` by `rep`, scanning left to right: Python `s.replace(pat, rep)`.
The fuel argument (instantiated with the list length, which always
suffices) only makes the recursion structural. -/
def replListF (p : Char) (ps rep : List Char) : Nat → List Char → List Char
  | _, [] => []
  | 0, l => l
  | fuel + 1, c :: cs =>
    if (p :: ps).isPrefixOf (c :: cs) then
      rep ++ replListF p ps rep fuel (cs.drop ps.length)
    else
      c :: replListF p ps rep fuel cs

/-- Python `s.replace(pat, rep)` on strings (pattern assumed nonempty;
every pattern used by the source is nonempty). -/
def pyReplace (s pat rep : String) : String :=
  match pat.toList with
  | [] => s
  | p :: ps => ⟨replListF p ps rep.toList s.toList.length s.toList⟩

/-- Index of the last occurrence of `a`, if any (`str.rfind`). -/
def lastIdxAux (a : Char) : List Char → Nat → Option Nat
  | [], _ => none
  | c :: cs, i =>
    match lastIdxAux a cs (i + 1) with
    | some j => some j
    | none => if c = a then some i else none

/-- Split a file name into `(stem, suffix)` following CPython's
`pathlib.PurePath.stem` / `.suffix`: the extension starts at the last dot,
provided that dot is neither the first nor the last character. -/
def pySplit (name : String) : String × String :=
  let cs := name.toList
  match lastIdxAux '.' cs 0 with
  | some i =>
    if 0 < i ∧ i < cs.length - 1 then (⟨cs.take i⟩, ⟨cs.drop i⟩)
    else (name, "")
  | none => (name, "")

/-! ## Local files and the file cache (`build_file_cache`) -/

/-- A file found in the export folder; only its name matters to the core. -/
structure LFile where
  name : String
deriving DecidableEq, Repr

/-- Python `Path.stem`. -/
def LFile.stem (f : LFile) : String := (pySplit f.name).1

/-- Python `Path.suffix`. -/
def LFile.suffix (f : LFile) : String := (pySplit f.name).2

/-- The cache built by `build_file_cache`: lookup key to file. -/
abbrev FileCache := Dict LFile

/-- Registration of one file in the cache (`build_file_cache` loop body,
lines 128-150): keys are the full name, the stem, the part of the stem
before the first dash (first-registered wins), and for stems ending in
`-image` also the stem with that suffix stripped (first-registered wins). -/
def cacheInsertFile (cache : FileCache) (f : LFile) : FileCache :=
  let c1 := dinsert cache f.name f
  let c2 := dinsert c1 f.stem f
  if (f.stem.toList.contains '-') then
    let baseId : String := ⟨f.stem.toList.takeWhile (fun c => c ≠ '-')⟩
    let c3 := if dmem c2 baseId then c2 else dinsert c2 baseId f
    if endsW f.stem "-image" then
      let baseWI : String := ⟨f.stem.toList.take (f.stem.toList.length - 6)⟩
      if dmem c3 baseWI then c3 else dinsert c3 baseWI f
    else c3
  else c2

/-- `build_file_cache`: fold over the directory listing (hidden files,
whose name starts with a dot, are skipped). -/
def buildFileCache (files : List LFile) : FileCache :=
  (files.filter (fun f => !(startsW f.name "."))).foldl cacheInsertFile []

/-! ## `clean_filename` -/

/-- Collapse every run of underscores to a single underscore
(`re.sub(r'_+', '_', stem)`): a maximal run of underscores keeps only its
last one, which is the same replacement the regex performs. -/
def collapseUnd : List Char → List Char
  | [] => []
  | [c] => [c]
  | c :: d :: cs =>
    if c = '_' && d = '_' then collapseUnd (d :: cs)
    else c :: collapseUnd (d :: cs)

/-- Python `s.strip('_')`: drop leading and trailing underscores. -/
def trimUnd (l : List Char) : List Char :=
  ((l.dropWhile (fun c => c = '_')).reverse.dropWhile (fun c => c = '_')).reverse

/-- `clean_filename` (lines 155-175): when cleaning is enabled, transform
the stem by the source's chain of replacements and re-attach the suffix. -/
def cleanFilename (cleanFlag : Bool) (filename : String) : String :=
  if !cleanFlag then filename
  else
    let stem := (pySplit filename).1
    let ext := (pySplit filename).2
    let s1 := pyReplace stem " " "_"
    let s2 := pyReplace s1 "(" ""
    let s3 := pyReplace s2 ")" ""
    let s4 := pyReplace s3 "[" ""
    let s5 := pyReplace s4 "]" ""
    let s6 := pyReplace s5 "," "_"
    let s7 := pyReplace s6 ";" "_"
    let s8 := pyReplace s7 "&" "and"
    let s9 := pyReplace s8 "#" ""
    let s10 : String := ⟨trimUnd (collapseUnd s9.toList)⟩
    s10 ++ ext

/-! ## `find_file_for_firebase_id` -/

/-- Extension comparison used throughout:
`file_path.suffix.lower() == extension.lower()`. -/
def extMatches (f : LFile) (ext : String) : Bool :=
  lowerS f.suffix == lowerS ext

/-- The compiled pattern `^{id}-\d+{ext}$` with `re.IGNORECASE`, matched
against a file name: the lowercased name decomposes as lowercased id,
a dash, a nonempty run of digits, and the lowercased extension. -/
def numSuffixMatch (firebaseId ext name : String) : Bool :=
  let n := (lowerS name).toList
  let p := (lowerS firebaseId).toList ++ ['-']
  let s := (lowerS ext).toList
  p.isPrefixOf n && decide (p.length + s.length < n.length) &&
    (let mid := (n.drop p.length).take (n.length - p.length - s.length)
     mid.all Char.isDigit && ((n.drop p.length).drop mid.length == s))

/-- `find_file_for_firebase_id` (lines 177-208): three layers tried in
order.  Layer 1: the four direct lookup keys, each accepted only when the
file's extension matches.  Layer 2: first cache entry whose file NAME
matches `^{id}-\d+{ext}$` case-insensitively.  Layer 3: first cache entry
whose KEY starts with the identifier and whose file extension matches. -/
def findFileForFirebaseId (cache : FileCache) (firebaseId ext : String) :
    Option LFile :=
  match [firebaseId, firebaseId ++ "-image", firebaseId ++ ext,
      firebaseId ++ "-image" ++ ext].findSome? (fun k =>
      match dlookup cache k with
      | some f => if extMatches f ext then some f else none
      | none => none) with
  | some f => some f
  | none =>
    match cache.find? (fun p => numSuffixMatch firebaseId ext p.2.name) with
    | some p => some p.2
    | none =>
      match cache.find? (fun p => startsW p.1 firebaseId && extMatches p.2 ext) with
      | some p => some p.2
      | none => none

/-! ## `extract_firebase_id` (lines 371-376)

The Python regex `imgs%2Fapp%2F[^%]+%2F([^.]+)\.([^.]+)\.enc` with
`re.search` is deterministic: at each candidate start position the literal
anchor must match, then `[^%]+` is forced to be the maximal nonempty run
of non-percent characters (a shorter run would put a non-percent character
in front of the literal `%2F`), then each `[^.]+` is forced to be the
maximal nonempty run of non-dot characters for the same reason, and the
trailing literal `.enc` must follow directly.  `re.search` returns the
match at the leftmost position where this succeeds. -/

/-- Strip a literal prefix, returning the remainder on success. -/
def dropPre : List Char → List Char → Option (List Char)
  | [], s => some s
  | _ :: _, [] => none
  | p :: ps, c :: cs => if c = p then dropPre ps cs else none

/-- One attempt of the extraction regex at a fixed start position. -/
def matchAt (s : List Char) : Option (String × String) :=
  match dropPre "imgs%2Fapp%2F".toList s with
  | none => none
  | some s1 =>
    let seg := s1.takeWhile (fun c => c ≠ '%')
    if seg.isEmpty then none
    else
      match dropPre "%2F".toList (s1.drop seg.length) with
      | none => none
      | some s2 =>
        let fid := s2.takeWhile (fun c => c ≠ '.')
        if fid.isEmpty then none
        else
          match dropPre ['.'] (s2.drop fid.length) with
          | none => none
          | some s3 =>
            let ext := s3.takeWhile (fun c => c ≠ '.')
            if ext.isEmpty then none
            else
              match dropPre ".enc".toList (s3.drop ext.length) with
              | none => none
              | some _ => some (⟨fid⟩, ⟨'.' :: ext⟩)

/-- Leftmost-match search (`re.search`). -/
def searchIn : List Char → Option (String × String)
  | [] => none
  | c :: cs =>
    match matchAt (c :: cs) with
    | some r => some r
    | none => searchIn cs

/-- `extract_firebase_id`: on success the identifier and the extension
with a leading dot (`'.' + match.group(2)`). -/
def extractFirebaseId (url : String) : Option (String × String) :=
  searchIn url.toList

/-! ## Upload coordinator (`process_files`, lines 275-359) -/

/-- An `UploadRecord` stored in `self.mapping` (lines 328-333).  The
timestamp is modelled by the 1-based index of the file in the run. -/
structure URecord where
  original_name : String
  target_name : String
  public_url : String
  uploaded_at : Nat
deriving DecidableEq, Repr

/-- The persisted progress document: `{'uploaded_files': …, 'mapping': …}`. -/
structure Ledger where
  uploaded_files : Dict String
  mapping : Dict URecord
deriving DecidableEq, Repr

/-- The configuration fields consulted by the core.  `nameHash` stands for
`hashlib.md5(name).hexdigest()[:12]`, an opaque deterministic function. -/
structure Config where
  keepOriginal : Bool
  cleanFlag : Bool
  batchSize : Nat
  pubUrl : String
  nameHash : String → String

/-- The mutable counters of `self.stats`. -/
structure Stats where
  total : Nat := 0
  uploaded : Nat := 0
  skipped : Nat := 0
  failed : Nat := 0
  updated : Nat := 0
  notFound : Nat := 0
deriving DecidableEq, Repr

/-- In-memory state of the coordinator: `self.mapping`,
`self.progress['uploaded_files']`, `self.stats`, and the sequence of
ledger snapshots written by `save_progress` so far. -/
structure PState where
  mapping : Dict URecord
  uploadedF : Dict String
  stats : Stats
  saves : List Ledger
deriving DecidableEq, Repr

/-- `save_progress` (lines 117-121): the persisted document carries the
accumulated `uploaded_files` and, wholesale, the in-memory `self.mapping`. -/
def snapshot (st : PState) : Ledger :=
  { uploaded_files := st.uploadedF, mapping := st.mapping }

/-- Target-name choice (lines 304-318): keep the original name unless it
contains a space or a parenthesis (then clean it); under the hash policy
use the 12-character hash plus the original suffix. -/
def targetNameFor (cfg : Config) (f : LFile) : String :=
  if cfg.keepOriginal then
    if containsC f.name ' ' || containsC f.name '(' || containsC f.name ')' then
      cleanFilename cfg.cleanFlag f.name
    else f.name
  else cfg.nameHash f.name ++ f.suffix

/-- Success branch of `process_files` (lines 326-339): build the record,
store it under the stem with every `-image` occurrence removed
(`str.replace` replaces all occurrences) and under the full stem — the
same record — and mark the file uploaded. -/
def storeSuccess (cfg : Config) (idx : Nat) (f : LFile) (target : String)
    (st : PState) : PState :=
  let url := cfg.pubUrl ++ "/" ++ target
  let rec0 : URecord :=
    { original_name := f.name, target_name := target,
      public_url := url, uploaded_at := idx }
  let baseId := pyReplace f.stem "-image" ""
  let m1 := dinsert st.mapping baseId rec0
  let m2 := dinsert m1 f.stem rec0
  { st with
    mapping := m2
    uploadedF := dinsert st.uploadedF f.name target
    stats := { st.stats with uploaded := st.stats.uploaded + 1 } }

/-- Body of the `process_files` loop for the file at 1-based index `idx`.
A file already recorded in `uploaded_files` is skipped and — because of the
`continue` — bypasses the batch checkpoint; otherwise the file is uploaded
(outcome given by the oracle `ok`), the state updated, and the ledger
persisted when `idx` is a multiple of the batch size. -/
def processOne (cfg : Config) (ok : LFile → String → Bool) (idx : Nat)
    (f : LFile) (st : PState) : PState :=
  if dmem st.uploadedF f.name then
    { st with stats := { st.stats with skipped := st.stats.skipped + 1 } }
  else
    let target := targetNameFor cfg f
    let st' :=
      if ok f target then storeSuccess cfg idx f target st
      else { st with stats := { st.stats with failed := st.stats.failed + 1 } }
    if idx % cfg.batchSize == 0 then
      { st' with saves := st'.saves ++ [snapshot st'] }
    else st'

/-- The `for idx, file_path in enumerate(all_files, 1)` loop. -/
def goFiles (cfg : Config) (ok : LFile → String → Bool) :
    Nat → List LFile → PState → PState
  | _, [], st => st
  | idx, f :: fs, st => goFiles cfg ok (idx + 1) fs (processOne cfg ok idx f st)

/-- `process_files`: filter hidden files, set the total, return early when
nothing is found (no save), otherwise run the loop and do the final save. -/
def processFiles (cfg : Config) (ok : LFile → String → Bool)
    (dirFiles : List LFile) (ledger0 : Ledger) : PState :=
  let files := dirFiles.filter (fun f => !(startsW f.name "."))
  let st0 : PState :=
    { mapping := []
      uploadedF := ledger0.uploaded_files
      stats := { total := files.length }
      saves := [] }
  if files.isEmpty then st0
  else
    let st := goFiles cfg ok 1 files st0
    { st with saves := st.saves ++ [snapshot st] }

/-! ## Document rewriter (`update_roam_json`, lines 361-466)

The four wrapper regexes of `process_block` are located by `re.finditer`
over the block's original text; that scanner is an external collaborator
here, passed as an oracle `fi : String → List MatchData` producing, in the
source's iteration order (all matches of the image pattern, then pdf, then
video, then bare link), the matched span, its kind, the alt text captured
by group 1 of the image pattern, and the captured URL.  Everything done
with a match — extraction, resolution, wrapper rebuilding, counting,
replacement — is embedded concretely below. -/

/-- The four recognized wrappers. -/
inductive MKind where
  | image
  | pdf
  | video
  | link
deriving DecidableEq, Repr

/-- One regex match inside a block's text: `whole` is `match.group(0)`,
`url` is the captured legacy URL (`group(2)` for images, `group(1)`
otherwise), `alt` is the image alt text (`group(1)`, empty otherwise). -/
structure MatchData where
  kind : MKind
  alt : String
  url : String
  whole : String
deriving DecidableEq, Repr

/-- Replacement text construction (lines 418-426): the same syntactic
wrapper around the new URL, with the alt text verbatim for images. -/
def wrapperText (k : MKind) (alt url : String) : String :=
  match k with
  | .image => "![" ++ alt ++ "](" ++ url ++ ")"
  | .pdf => "\x7b\x7b[[pdf]]: " ++ url ++ "\x7d\x7d"
  | .video => "\x7b\x7b[[video]]: " ++ url ++ "\x7d\x7d"
  | .link => "<" ++ url ++ ">"

/-- The rewriter's environment: the public base URL, `self.mapping`,
`self.progress['uploaded_files']` and `self.local_files_cache`. -/
structure REnv where
  pubUrl : String
  mapping : Dict URecord
  uploadedF : Dict String
  cache : FileCache

/-- Resolution of one extracted identifier (lines 401-414): the direct
mapping lookup wins; otherwise the filename matcher is asked for a local
file whose name must appear in `uploaded_files`, and the URL is
synthesized from the public base and the recorded target name. -/
def resolveRef (e : REnv) (firebaseId ext : String) : Option String :=
  match dlookup e.mapping firebaseId with
  | some r => some r.public_url
  | none =>
    match findFileForFirebaseId e.cache firebaseId ext with
    | some f =>
      match dlookup e.uploadedF f.name with
      | some target => some (e.pubUrl ++ "/" ++ target)
      | none => none
    | none => none

/-- Processing of one match (lines 394-432) over the evolving
`(text, stats, modified)` triple: an unextractable URL is skipped
untouched and uncounted; a resolved reference replaces every occurrence of
the matched span by the rebuilt wrapper and bumps `links_updated`; an
unresolved one bumps `links_not_found` and leaves the text alone. -/
def processMatch (e : REnv) (m : MatchData) :
    String × Stats × Bool → String × Stats × Bool :=
  fun acc =>
    let text := acc.1
    let st := acc.2.1
    let modified := acc.2.2
    match extractFirebaseId m.url with
    | none => (text, st, modified)
    | some (fid, ext) =>
      match resolveRef e fid ext with
      | some url =>
        (pyReplace text m.whole (wrapperText m.kind m.alt url),
         { st with updated := st.updated + 1 }, true)
      | none => (text, { st with notFound := st.notFound + 1 }, modified)

/-- Processing of all matches found in a block's original text. -/
def processText (e : REnv) (ms : List MatchData) (text : String)
    (st : Stats) : String × Stats × Bool :=
  ms.foldl (fun acc m => processMatch e m acc) (text, st, false)

/-- A block of the document tree: an optional `string` field, the
remaining fields (opaque key-value data), and an optional `children`
list.  `none` children model a block without a `children` key. -/
inductive Block where
  | node (str? : Option String) (extra : List (String × String))
      (children? : Option (List Block)) : Block

/-- A page: opaque fields plus an optional `children` list.  A page's own
`string` is never processed by the source. -/
structure Page where
  extra : List (String × String)
  children? : Option (List Block)

mutual

/-- `process_block` (lines 378-440): rewrite the block's `string` (when
present) through all matches the scanner finds in it, then recurse into
the children (when present); the modified flag is the disjunction. -/
def processBlock (e : REnv) (fi : String → List MatchData) :
    Block → Stats → Block × Stats × Bool
  | .node str? extra children?, st =>
    let resS :=
      match str? with
      | none => (none, st, false)
      | some t =>
        let r := processText e (fi t) t st
        (some r.1, r.2.1, r.2.2)
    match children? with
    | none => (.node resS.1 extra none, resS.2.1, resS.2.2)
    | some ch =>
      let resC := processChildren e fi ch resS.2.1
      (.node resS.1 extra (some resC.1), resC.2.1, resS.2.2 || resC.2.2)

/-- The `for child in block['children']` loop. -/
def processChildren (e : REnv) (fi : String → List MatchData) :
    List Block → Stats → List Block × Stats × Bool
  | [], st => ([], st, false)
  | b :: bs, st =>
    let r := processBlock e fi b st
    let rs := processChildren e fi bs r.2.1
    (r.1 :: rs.1, rs.2.1, r.2.2 || rs.2.2)

end

/-- The page loop of `update_roam_json` (lines 443-455): each page's
children are processed in order; a page counts as modified when any of its
blocks was; the result is the rewritten pages, the stats, and
`pages_modified`. -/
def updatePages (e : REnv) (fi : String → List MatchData) :
    List Page → Stats → List Page × Stats × Nat
  | [], st => ([], st, 0)
  | p :: ps, st =>
    match p.children? with
    | none =>
      let r := updatePages e fi ps st
      (p :: r.1, r.2.1, r.2.2)
    | some ch =>
      let rc := processChildren e fi ch st
      let r := updatePages e fi ps rc.2.1
      ({ p with children? := some rc.1 } :: r.1, r.2.1,
        r.2.2 + if rc.2.2 then 1 else 0)

mutual

/-- Everything in a block except its `string` fields. -/
def Block.skel : Block → Block
  | .node _ extra none => .node none extra none
  | .node _ extra (some ch) => .node none extra (some (skelList ch))

/-- Skeletons of a list of blocks. -/
def skelList : List Block → List Block
  | [] => []
  | b :: bs => b.skel :: skelList bs

end

/-- Everything in a page except the `string` fields of its blocks. -/
def Page.skel (p : Page) : Page :=
  { extra := p.extra, children? := p.children?.map skelList }

/-! ## Lemmas about the dict model -/

theorem dlookup_cons {β : Type} (p : String × β) (ps : Dict β) (k : String) :
    dlookup (p :: ps) k = if p.1 == k then some p.2 else dlookup ps k := by
  simp only [dlookup, List.find?]
  cases h : p.1 == k <;> simp [h]

theorem dmem_cons {β : Type} (p : String × β) (ps : Dict β) (k : String) :
    dmem (p :: ps) k = (p.1 == k || dmem ps k) := by
  simp [dmem]

theorem dmem_false_lookup {β : Type} {l : Dict β} {k : String}
    (h : dmem l k = false) : dlookup l k = none := by
  induction l with
  | nil => rfl
  | cons p ps ih =>
    rw [dmem_cons, Bool.or_eq_false_iff] at h
    rw [dlookup_cons, h.1]
    simpa using ih h.2

theorem lookup_overwrite_self {β : Type} {l : Dict β} {k : String} (v : β)
    (h : dmem l k = true) :
    dlookup (l.map (fun p => if p.1 == k then (k, v) else p)) k = some v := by
  induction l with
  | nil => simp [dmem] at h
  | cons p ps ih =>
    rw [dmem_cons, Bool.or_eq_true] at h
    by_cases hp : (p.1 == k) = true
    · have hk : p.1 = k := by simpa using hp
      simp [List.map_cons, hp, dlookup_cons, hk]
    · have hpf : (p.1 == k) = false := by simpa using hp
      have hps : dmem ps k = true := by
        rcases h with h | h
        · exact absurd h hp
        · exact h
      rw [List.map_cons, hpf]
      simp only [Bool.false_eq_true, if_false]
      rw [dlookup_cons, hpf]
      simp only [Bool.false_eq_true, if_false]
      exact ih hps

theorem lookup_overwrite_ne {β : Type} (l : Dict β) {k k' : String} (v : β)
    (hne : k' ≠ k) :
    dlookup (l.map (fun p => if p.1 == k then (k, v) else p)) k' = dlookup l k' := by
  induction l with
  | nil => rfl
  | cons p ps ih =>
    by_cases hp : (p.1 == k) = true
    · have hk : p.1 = k := by simpa using hp
      rw [List.map_cons, hp]
      simp only [if_true]
      rw [dlookup_cons, dlookup_cons]
      have h1 : (k == k') = false := by
        simp only [beq_eq_false_iff_ne, ne_eq]
        exact fun hc => hne hc.symm
      have h2 : (p.1 == k') = false := by
        rw [hk]; exact h1
      rw [h1, h2]
      simp only [Bool.false_eq_true, if_false]
      exact ih
    · have hpf : (p.1 == k) = false := by simpa using hp
      rw [List.map_cons, hpf]
      simp only [Bool.false_eq_true, if_false]
      rw [dlookup_cons, dlookup_cons]
      cases hq : p.1 == k' with
      | true => simp
      | false =>
        simp only [Bool.false_eq_true, if_false]
        exact ih

theorem lookup_append_single_self {β : Type} {l : Dict β} {k : String} (v : β)
    (h : dlookup l k = none) : dlookup (l ++ [(k, v)]) k = some v := by
  induction l with
  | nil => simp [dlookup, List.find?]
  | cons p ps ih =>
    rw [dlookup_cons] at h
    rw [List.cons_append, dlookup_cons]
    cases hq : p.1 == k with
    | true => rw [hq] at h; simp at h
    | false =>
      rw [hq] at h
      simp only [Bool.false_eq_true, if_false] at h ⊢
      exact ih h

theorem lookup_append_single_ne {β : Type} (l : Dict β) {k k' : String} (v : β)
    (hne : k' ≠ k) : dlookup (l ++ [(k, v)]) k' = dlookup l k' := by
  induction l with
  | nil =>
    simp only [List.nil_append, dlookup_cons]
    have h1 : (k == k') = false := by
      simp only [beq_eq_false_iff_ne, ne_eq]
      exact fun hc => hne hc.symm
    rw [h1]
    simp [dlookup, List.find?]
  | cons p ps ih =>
    rw [List.cons_append, dlookup_cons, dlookup_cons]
    cases hq : p.1 == k' with
    | true => simp
    | false =>
      simp only [Bool.false_eq_true, if_false]
      exact ih

theorem dlookup_dinsert_self {β : Type} (l : Dict β) (k : String) (v : β) :
    dlookup (dinsert l k v) k = some v := by
  unfold dinsert
  by_cases h : dmem l k
  · rw [if_pos h]
    exact lookup_overwrite_self v h
  · rw [if_neg h]
    exact lookup_append_single_self v (dmem_false_lookup (by simpa using h))

theorem dlookup_dinsert_ne {β : Type} (l : Dict β) {k k' : String} (v : β)
    (hne : k' ≠ k) : dlookup (dinsert l k v) k' = dlookup l k' := by
  unfold dinsert
  by_cases h : dmem l k
  · rw [if_pos h]
    exact lookup_overwrite_ne l v hne
  · rw [if_neg h]
    exact lookup_append_single_ne l v hne

theorem dmem_dinsert_self {β : Type} (l : Dict β) (k : String) (v : β) :
    dmem (dinsert l k v) k = true := by
  unfold dinsert
  by_cases h : dmem l k
  · rw [if_pos h]
    unfold dmem at h ⊢
    simp only [List.any_eq_true] at h ⊢
    obtain ⟨p, hp, hpk⟩ := h
    exact ⟨(k, v), List.mem_map.mpr ⟨p, hp, by simp [hpk]⟩, by simp⟩
  · rw [if_neg h]
    unfold dmem
    simp

theorem dmem_dinsert_mono {β : Type} (l : Dict β) (k k' : String) (v : β)
    (h : dmem l k' = true) : dmem (dinsert l k v) k' = true := by
  by_cases hk : k' = k
  · subst hk; exact dmem_dinsert_self l k' v
  · unfold dinsert
    by_cases hm : dmem l k
    · rw [if_pos hm]
      unfold dmem at h ⊢
      simp only [List.any_eq_true] at h ⊢
      obtain ⟨p, hp, hpk⟩ := h
      refine ⟨if p.1 == k then (k, v) else p, List.mem_map.mpr ⟨p, hp, rfl⟩, ?_⟩
      have hp1 : p.1 = k' := by simpa using hpk
      have : (p.1 == k) = false := by
        simp only [beq_eq_false_iff_ne, ne_eq, hp1]
        exact hk
      simp [this, hpk]
    · rw [if_neg hm]
      unfold dmem at h ⊢
      simp only [List.any_append, h, Bool.true_or]

theorem dlookup_mem_values {β : Type} {l : Dict β} {k : String} {v : β}
    (h : dlookup l k = some v) : v ∈ dvalues l := by
  induction l with
  | nil => simp [dlookup, List.find?] at h
  | cons p ps ih =>
    rw [dlookup_cons] at h
    cases hq : p.1 == k with
    | true =>
      rw [hq] at h
      simp only [if_true] at h
      cases h
      simp [dvalues]
    | false =>
      rw [hq] at h
      simp only [Bool.false_eq_true, if_false] at h
      simp only [dvalues, List.map_cons, List.mem_cons]
      exact Or.inr (ih h)

theorem dmem_overwrite_ne {β : Type} (l : Dict β) {k k' : String} (v : β)
    (hne : k' ≠ k) :
    dmem (l.map (fun p => if p.1 == k then (k, v) else p)) k' = dmem l k' := by
  induction l with
  | nil => rfl
  | cons p ps ih =>
    rw [List.map_cons, dmem_cons, dmem_cons]
    by_cases hp : (p.1 == k) = true
    · have hk : p.1 = k := by simpa using hp
      rw [hp]
      simp only [if_true]
      have h1 : (k == k') = false := by
        simp only [beq_eq_false_iff_ne, ne_eq]
        exact fun hc => hne hc.symm
      have h2 : (p.1 == k') = false := by rw [hk]; exact h1
      rw [h1, h2]
      simp only [Bool.false_or]
      exact ih
    · have hpf : (p.1 == k) = false := by simpa using hp
      rw [hpf]
      simp only [Bool.false_eq_true, if_false]
      rw [ih]

theorem dmem_dinsert_ne {β : Type} (l : Dict β) {k k' : String} (v : β)
    (hne : k' ≠ k) : dmem (dinsert l k v) k' = dmem l k' := by
  unfold dinsert
  by_cases hm : dmem l k
  · rw [if_pos hm]
    exact dmem_overwrite_ne l v hne
  · rw [if_neg hm]
    unfold dmem
    rw [List.any_append]
    have h1 : (k == k') = false := by
      simp only [beq_eq_false_iff_ne, ne_eq]
      exact fun hc => hne hc.symm
    simp [h1]

theorem dmem_dinsert {β : Type} (l : Dict β) (k k' : String) (v : β) :
    dmem (dinsert l k v) k' = (dmem l k' || k' == k) := by
  by_cases hk : k' = k
  · subst hk
    rw [dmem_dinsert_self]
    simp
  · rw [dmem_dinsert_ne l v hk]
    have : (k' == k) = false := by simpa using hk
    rw [this]
    simp

/-! ## Claim C4: the two mapping keys of a successful upload -/

/-- Configuration used by the concrete instances below: default policies
and the public base URL `https://pub.example`. -/
def cfg0 : Config :=
  { keepOriginal := true, cleanFlag := true, batchSize := 50,
    pubUrl := "https://pub.example", nameHash := fun _ => "" }

/-- Modelled from the claim's wording, for comparison only: the stem with
a trailing `-image` suffix removed (no other occurrence touched). -/
def stripImageSuffix (stem : String) : String :=
  if endsW stem "-image" then ⟨stem.toList.take (stem.toList.length - 6)⟩
  else stem

/-- Claim C4, counterexample: uploading `b-imagex.png` stores the record
under the key `bx` — the stem with every occurrence of `-image` removed,
here erasing a non-suffix occurrence — which is neither the full stem
`b-imagex` nor the stem with a trailing `-image` suffix removed (which
would be `b-imagex` again), so the claimed key set is wrong. -/
theorem c4_counterexample :
    dlookup (storeSuccess cfg0 1 ⟨"b-imagex.png"⟩ "b-imagex.png"
        ⟨[], [], {}, []⟩).mapping "bx" =
      some ⟨"b-imagex.png", "b-imagex.png",
        "https://pub.example/b-imagex.png", 1⟩ ∧
    LFile.stem ⟨"b-imagex.png"⟩ = "b-imagex" ∧
    stripImageSuffix "b-imagex" = "b-imagex" ∧
    "bx" ≠ "b-imagex" := by
  refine ⟨by decide, by decide, by decide, by decide⟩

/-- Claim C4 (amended): on a successful upload the coordinator stores the
UploadRecord under the full stem and under the stem with every occurrence
of `-image` removed (a single key when the two coincide); both keys map to
the identical record, whose public URL is the public base, `/`, and the
target name, and no other mapping key is added. -/
theorem c4_amended (cfg : Config) (idx : Nat) (f : LFile) (target : String)
    (st : PState) :
    ∃ r : URecord,
      dlookup (storeSuccess cfg idx f target st).mapping f.stem = some r ∧
      dlookup (storeSuccess cfg idx f target st).mapping
        (pyReplace f.stem "-image" "") = some r ∧
      r.public_url = cfg.pubUrl ++ "/" ++ target ∧
      r.target_name = target ∧
      (∀ k, dmem (storeSuccess cfg idx f target st).mapping k =
        (dmem st.mapping k || k == pyReplace f.stem "-image" "" || k == f.stem)) := by
  refine ⟨⟨f.name, target, cfg.pubUrl ++ "/" ++ target, idx⟩, ?_, ?_, rfl, rfl, ?_⟩
  · exact dlookup_dinsert_self _ _ _
  · by_cases hb : pyReplace f.stem "-image" "" = f.stem
    · rw [hb]
      exact dlookup_dinsert_self _ _ _
    · show dlookup (dinsert (dinsert st.mapping _ _) f.stem _) _ = _
      rw [dlookup_dinsert_ne _ _ hb]
      exact dlookup_dinsert_self _ _ _
  · intro k
    show dmem (dinsert (dinsert st.mapping _ _) f.stem _) k = _
    rw [dmem_dinsert, dmem_dinsert]

/-! ## Claim C3: the three resolution layers -/

/-- Layer 1 of the claim: the four direct lookup keys, each candidate
accepted only when its actual extension matches case-insensitively. -/
def layer1 (cache : FileCache) (firebaseId ext : String) : Option LFile :=
  [firebaseId, firebaseId ++ "-image", firebaseId ++ ext,
    firebaseId ++ "-image" ++ ext].findSome? (fun k =>
      match dlookup cache k with
      | some f => if extMatches f ext then some f else none
      | none => none)

/-- Layer 2 of the claim: the first cache entry whose file name matches
`^{id}-\d+{ext}$` case-insensitively. -/
def layer2 (cache : FileCache) (firebaseId ext : String) : Option LFile :=
  (cache.find? (fun p => numSuffixMatch firebaseId ext p.2.name)).map
    (fun p => p.2)

/-- Layer 3 as the code implements it: the first cache entry whose KEY
starts with the identifier and whose file extension matches. -/
def layer3 (cache : FileCache) (firebaseId ext : String) : Option LFile :=
  (cache.find? (fun p => startsW p.1 firebaseId && extMatches p.2 ext)).map
    (fun p => p.2)

/-- Claim C3, counterexample: with the cache built from the files
`abc-1.png`, `abc-1.png.bak`, `abc-1` (in that order), the lookup for
identifier `abc-1` with extension `.png` returns not-found although the
cache still holds a file (`abc-1.png`, reachable only under the key
`abc`) whose NAME starts with the identifier and whose extension matches:
the fallback layer scans cache keys, not file names, so claim layer (3)
as stated is violated. -/
theorem c3_counterexample :
    findFileForFirebaseId
        (buildFileCache [⟨"abc-1.png"⟩, ⟨"abc-1.png.bak"⟩, ⟨"abc-1"⟩])
        "abc-1" ".png" = none ∧
    (buildFileCache [⟨"abc-1.png"⟩, ⟨"abc-1.png.bak"⟩, ⟨"abc-1"⟩]).any
      (fun p => startsW p.2.name "abc-1" && extMatches p.2 ".png") = true := by
  refine ⟨by decide, by decide⟩

/-- Claim C3 (amended): resolution follows the three layers in order with
the first hit winning — direct keys with extension check, then the
numeric-suffix pattern on file names, then any cache ENTRY whose key
starts with the identifier and whose file extension matches — and returns
not-found exactly when no layer has a hit; moreover any returned file
either has a matching extension or matches the numeric-suffix pattern. -/
theorem c3_amended (cache : FileCache) (firebaseId ext : String) :
    findFileForFirebaseId cache firebaseId ext =
      ((layer1 cache firebaseId ext).orElse (fun _ =>
        ((layer2 cache firebaseId ext).orElse (fun _ =>
          layer3 cache firebaseId ext)))) ∧
    (findFileForFirebaseId cache firebaseId ext = none ↔
      layer1 cache firebaseId ext = none ∧
      layer2 cache firebaseId ext = none ∧
      layer3 cache firebaseId ext = none) ∧
    (∀ f, findFileForFirebaseId cache firebaseId ext = some f →
      extMatches f ext = true ∨ numSuffixMatch firebaseId ext f.name = true) := by
  refine ⟨?_, ?_, ?_⟩
  · unfold findFileForFirebaseId layer1 layer2 layer3
    cases h1 : [firebaseId, firebaseId ++ "-image", firebaseId ++ ext,
        firebaseId ++ "-image" ++ ext].findSome? (fun k =>
          match dlookup cache k with
          | some f => if extMatches f ext then some f else none
          | none => none) with
    | some f => simp [Option.orElse]
    | none =>
      cases h2 : cache.find? (fun p => numSuffixMatch firebaseId ext p.2.name) with
      | some p => simp [Option.orElse]
      | none =>
        cases h3 : cache.find? (fun p =>
            startsW p.1 firebaseId && extMatches p.2 ext) with
        | some p => simp [Option.orElse]
        | none => simp [Option.orElse]
  · unfold findFileForFirebaseId layer1 layer2 layer3
    cases h1 : [firebaseId, firebaseId ++ "-image", firebaseId ++ ext,
        firebaseId ++ "-image" ++ ext].findSome? (fun k =>
          match dlookup cache k with
          | some f => if extMatches f ext then some f else none
          | none => none) with
    | some f => simp
    | none =>
      cases h2 : cache.find? (fun p => numSuffixMatch firebaseId ext p.2.name) with
      | some p => simp
      | none =>
        cases h3 : cache.find? (fun p =>
            startsW p.1 firebaseId && extMatches p.2 ext) with
        | some p => simp
        | none => simp
  · intro f hf
    unfold findFileForFirebaseId at hf
    cases h1 : [firebaseId, firebaseId ++ "-image", firebaseId ++ ext,
        firebaseId ++ "-image" ++ ext].findSome? (fun k =>
          match dlookup cache k with
          | some f => if extMatches f ext then some f else none
          | none => none) with
    | some g =>
      rw [h1] at hf
      simp only [Option.some.injEq] at hf
      subst hf
      obtain ⟨k, _, hk⟩ := List.exists_of_findSome?_eq_some h1
      left
      cases hl : dlookup cache k with
      | none => rw [hl] at hk; simp at hk
      | some g' =>
        rw [hl] at hk
        have hk' : (if extMatches g' ext = true then some g' else none) = some g := hk
        by_cases he : extMatches g' ext = true
        · rw [if_pos he] at hk'
          cases hk'
          exact he
        · rw [if_neg he] at hk'
          simp at hk'
    | none =>
      rw [h1] at hf
      cases h2 : cache.find? (fun p => numSuffixMatch firebaseId ext p.2.name) with
      | some p =>
        rw [h2] at hf
        simp only [Option.some.injEq] at hf
        subst hf
        right
        simpa using List.find?_some h2
      | none =>
        rw [h2] at hf
        cases h3 : cache.find? (fun p =>
            startsW p.1 firebaseId && extMatches p.2 ext) with
        | some p =>
          rw [h3] at hf
          simp only [Option.some.injEq] at hf
          subst hf
          left
          have := List.find?_some h3
          simp only [Bool.and_eq_true] at this
          exact this.2
        | none => rw [h3] at hf; exact absurd hf (by simp)

/-- Claim C3 (amended), witness: the layered decomposition at a one-file
cache, and the extension guarantee for the file it returns. -/
theorem c3_amended_witness :
    findFileForFirebaseId (buildFileCache [⟨"abC123.png"⟩]) "abC123" ".png" =
      ((layer1 (buildFileCache [⟨"abC123.png"⟩]) "abC123" ".png").orElse
        (fun _ =>
          ((layer2 (buildFileCache [⟨"abC123.png"⟩]) "abC123" ".png").orElse
            (fun _ =>
              layer3 (buildFileCache [⟨"abC123.png"⟩]) "abC123" ".png")))) ∧
    (extMatches ⟨"abC123.png"⟩ ".png" = true ∨
      numSuffixMatch "abC123" ".png" "abC123.png" = true) := by
  constructor
  · exact (c3_amended (buildFileCache [⟨"abC123.png"⟩]) "abC123" ".png").1
  · exact (c3_amended (buildFileCache [⟨"abC123.png"⟩]) "abC123" ".png").2.2
      ⟨"abC123.png"⟩ (by decide)

/-! ## Claim C5: target names under the keep-original-names policy -/

/-- Single-character substitution, the building block of the cleaning
chain: replace `a` by `rep`, keep anything else. -/
def sub1 (a : Char) (rep : List Char) : Char → List Char :=
  fun c => if c = a then rep else [c]

/-- Modelled from the original claim's wording, for refutation only: the
claim says commas and semicolons (like the other disallowed characters
except space and ampersand) are removed. -/
def claimCleanCharMap (c : Char) : List Char :=
  if c = ' ' then ['_']
  else if c = '&' then ['a', 'n', 'd']
  else if c = '(' ∨ c = ')' ∨ c = '[' ∨ c = ']' ∨ c = ',' ∨ c = ';' ∨ c = '#'
    then []
  else [c]

/-- Cleaned name as the original claim describes it. -/
def claimClean (name : String) : String :=
  (⟨trimUnd (collapseUnd ((pySplit name).1.toList.flatMap claimCleanCharMap))⟩ :
    String) ++ (pySplit name).2

/-- Per-character cleaning map of the amended claim: spaces, commas and
semicolons become underscores, ampersand becomes `and`, parentheses,
brackets and hash are removed, everything else is kept. -/
def cleanCharMap (c : Char) : List Char :=
  if c = ' ' ∨ c = ',' ∨ c = ';' then ['_']
  else if c = '&' then ['a', 'n', 'd']
  else if c = '(' ∨ c = ')' ∨ c = '[' ∨ c = ']' ∨ c = '#' then []
  else [c]

/-- Cleaned name as the amended claim describes it: one character pass
over the stem, collapse repeated underscores, trim leading and trailing
underscores, preserve the extension. -/
def cleanSpec (name : String) : String :=
  (⟨trimUnd (collapseUnd ((pySplit name).1.toList.flatMap cleanCharMap))⟩ :
    String) ++ (pySplit name).2

/-- Trigger condition the source actually uses (line 307): a space or a
parenthesis in the original name. -/
def cleanTrigger (name : String) : Bool :=
  containsC name ' ' || containsC name '(' || containsC name ')'

/-- Claim C5, counterexample: `a,b.png` contains a disallowed character
(the comma), so the claim predicts the cleaned target `ab.png`; but the
code only triggers cleaning on spaces and parentheses and keeps `a,b.png`
verbatim.  Moreover even when cleaning does trigger (`a b,c.png`), the
comma becomes an underscore (`a_b_c.png`) instead of being removed
(`a_bc.png`) as the claim states. -/
theorem c5_counterexample :
    targetNameFor cfg0 ⟨"a,b.png"⟩ = "a,b.png" ∧
    containsC "a,b.png" ',' = true ∧
    claimClean "a,b.png" = "ab.png" ∧
    "a,b.png" ≠ "ab.png" ∧
    cleanFilename true "a b,c.png" = "a_b_c.png" ∧
    claimClean "a b,c.png" = "a_bc.png" ∧
    "a_b_c.png" ≠ "a_bc.png" := by
  refine ⟨by decide, by decide, by decide, by decide, by decide, by decide,
    by decide⟩

theorem replListF_nil (p : Char) (ps rep : List Char) (fuel : Nat) :
    replListF p ps rep fuel [] = [] := by
  cases fuel <;> rfl

theorem replListF_succ_cons (p : Char) (ps rep : List Char) (fuel : Nat)
    (c : Char) (cs : List Char) :
    replListF p ps rep (fuel + 1) (c :: cs) =
      if (p :: ps).isPrefixOf (c :: cs) then
        rep ++ replListF p ps rep fuel (cs.drop ps.length)
      else c :: replListF p ps rep fuel cs := rfl

/-- A single-character replacement is a per-character flat map. -/
theorem replListF_single (a : Char) (rep : List Char) :
    ∀ (l : List Char) (fuel : Nat), l.length ≤ fuel →
      replListF a [] rep fuel l = l.flatMap (sub1 a rep) := by
  intro l
  induction l with
  | nil => intro fuel _; rw [replListF_nil]; rfl
  | cons c cs ih =>
    intro fuel hf
    cases fuel with
    | zero => simp at hf
    | succ fuel =>
      rw [replListF_succ_cons]
      have hpre : (([a] : List Char).isPrefixOf (c :: cs)) = (a == c) := by
        simp [List.isPrefixOf]
      rw [hpre, List.flatMap_cons]
      have hcs : cs.length ≤ fuel := by
        simp only [List.length_cons] at hf
        omega
      cases h : a == c with
      | true =>
        have hca : c = a := ((beq_iff_eq).mp h).symm
        rw [if_pos rfl]
        simp only [List.length_nil, List.drop_zero]
        rw [ih fuel hcs]
        unfold sub1
        rw [if_pos hca]
      | false =>
        have hca : ¬(c = a) := by
          intro hc
          subst hc
          simp at h
        rw [if_neg (by simp), ih fuel hcs]
        unfold sub1
        rw [if_neg hca]
        rfl

/-- Evaluation of `pyReplace` for a single-character pattern. -/
theorem pyReplace_single_eq (pat : String) (a : Char)
    (hpat : pat.toList = [a]) (rep s : String) :
    pyReplace s pat rep = ⟨s.toList.flatMap (sub1 a rep.toList)⟩ := by
  unfold pyReplace
  rw [hpat]
  exact congrArg String.mk
    (replListF_single a rep.toList s.toList s.toList.length (le_refl _))

/-- The nine-step cleaning chain of `clean_filename`, as one flat-map
pipeline over the stem's characters. -/
def chainList (l : List Char) : List Char :=
  ((((((((l.flatMap (sub1 ' ' ['_'])).flatMap
    (sub1 '(' [])).flatMap
    (sub1 ')' [])).flatMap
    (sub1 '[' [])).flatMap
    (sub1 ']' [])).flatMap
    (sub1 ',' ['_'])).flatMap
    (sub1 ';' ['_'])).flatMap
    (sub1 '&' ['a', 'n', 'd'])).flatMap
    (sub1 '#' [])

theorem chainList_append (l1 l2 : List Char) :
    chainList (l1 ++ l2) = chainList l1 ++ chainList l2 := by
  unfold chainList
  simp only [List.flatMap_append]

theorem chainList_cons (c : Char) (l : List Char) :
    chainList (c :: l) = chainList [c] ++ chainList l := by
  rw [show c :: l = [c] ++ l from rfl, chainList_append]

/-- The per-character effect of the cleaning chain is exactly the amended
claim's character map. -/
theorem chainList_single (c : Char) : chainList [c] = cleanCharMap c := by
  by_cases h1 : c = ' '
  · subst h1; decide
  by_cases h2 : c = '('
  · subst h2; decide
  by_cases h3 : c = ')'
  · subst h3; decide
  by_cases h4 : c = '['
  · subst h4; decide
  by_cases h5 : c = ']'
  · subst h5; decide
  by_cases h6 : c = ','
  · subst h6; decide
  by_cases h7 : c = ';'
  · subst h7; decide
  by_cases h8 : c = '&'
  · subst h8; decide
  by_cases h9 : c = '#'
  · subst h9; decide
  unfold chainList cleanCharMap sub1
  simp [h1, h2, h3, h4, h5, h6, h7, h8, h9]

theorem chainList_eq_spec (l : List Char) :
    chainList l = l.flatMap cleanCharMap := by
  induction l with
  | nil => decide
  | cons c cs ih =>
    rw [chainList_cons, ih, List.flatMap_cons, chainList_single]

/-- The chained `pyReplace` calls of `clean_filename` compute the
flat-map pipeline. -/
theorem chain_toList (stem : String) :
    (pyReplace (pyReplace (pyReplace (pyReplace (pyReplace (pyReplace
      (pyReplace (pyReplace (pyReplace stem " " "_") "(" "") ")" "")
        "[" "") "]" "") "," "_") ";" "_") "&" "and") "#" "").toList =
    chainList stem.toList := by
  rw [pyReplace_single_eq " " ' ' rfl, pyReplace_single_eq "(" '(' rfl,
    pyReplace_single_eq ")" ')' rfl, pyReplace_single_eq "[" '[' rfl,
    pyReplace_single_eq "]" ']' rfl, pyReplace_single_eq "," ',' rfl,
    pyReplace_single_eq ";" ';' rfl, pyReplace_single_eq "&" '&' rfl,
    pyReplace_single_eq "#" '#' rfl]
  rfl

/-- The cleaning of `clean_filename` is exactly the amended claim's
description. -/
theorem cleanFilename_eq_spec (name : String) :
    cleanFilename true name = cleanSpec name := by
  have key : (pyReplace (pyReplace (pyReplace (pyReplace (pyReplace
      (pyReplace (pyReplace (pyReplace (pyReplace (pySplit name).1
        " " "_") "(" "") ")" "") "[" "") "]" "") "," "_") ";" "_")
        "&" "and") "#" "").toList =
      (pySplit name).1.toList.flatMap cleanCharMap :=
    (chain_toList (pySplit name).1).trans (chainList_eq_spec _)
  show (⟨trimUnd (collapseUnd (pyReplace (pyReplace (pyReplace (pyReplace
      (pyReplace (pyReplace (pyReplace (pyReplace (pyReplace
        (pySplit name).1 " " "_") "(" "") ")" "") "[" "") "]" "")
        "," "_") ";" "_") "&" "and") "#" "").toList)⟩ : String) ++
      (pySplit name).2 =
    (⟨trimUnd (collapseUnd ((pySplit name).1.toList.flatMap
      cleanCharMap))⟩ : String) ++ (pySplit name).2
  rw [key]

/-- Claim C5 (amended): under the keep-original-names policy with
cleaning enabled, the target name equals the original filename unless the
name contains a space or a parenthesis; when it does, the target is the
cleaned name, where spaces, commas and semicolons become underscores,
ampersand becomes `and`, parentheses, brackets and hash are removed,
repeated underscores collapse, leading and trailing underscores are
trimmed, and the extension is preserved; in particular `My File (2).png`
maps to `My_File_2.png`. -/
theorem c5_amended (cfg : Config) (name : String)
    (hko : cfg.keepOriginal = true) (hcf : cfg.cleanFlag = true) :
    (cleanTrigger name = false → targetNameFor cfg ⟨name⟩ = name) ∧
    (cleanTrigger name = true →
      targetNameFor cfg ⟨name⟩ = cleanSpec name) ∧
    cleanFilename true name = cleanSpec name ∧
    targetNameFor cfg0 ⟨"My File (2).png"⟩ = "My_File_2.png" := by
  refine ⟨?_, ?_, cleanFilename_eq_spec name, by decide⟩
  · intro ht
    unfold targetNameFor
    rw [hko, if_pos rfl]
    unfold cleanTrigger at ht
    show (if containsC name ' ' || containsC name '(' || containsC name ')'
      then cleanFilename cfg.cleanFlag name else name) = name
    rw [ht]
    rfl
  · intro ht
    unfold targetNameFor
    rw [hko, if_pos rfl]
    unfold cleanTrigger at ht
    show (if containsC name ' ' || containsC name '(' || containsC name ')'
      then cleanFilename cfg.cleanFlag name else name) = cleanSpec name
    rw [ht, if_pos rfl, hcf]
    exact cleanFilename_eq_spec name

/-- Claim C5 (amended), witness at `My File (2).png` and `plain.png`. -/
theorem c5_amended_witness :
    cleanTrigger "plain.png" = false ∧
    targetNameFor cfg0 ⟨"plain.png"⟩ = "plain.png" ∧
    cleanTrigger "My File (2).png" = true ∧
    targetNameFor cfg0 ⟨"My File (2).png"⟩ = cleanSpec "My File (2).png" := by
  refine ⟨by decide, (c5_amended cfg0 "plain.png" rfl rfl).1 (by decide),
    by decide, (c5_amended cfg0 "My File (2).png" rfl rfl).2.1 (by decide)⟩

/-! ## Claim C2: identifier and extension extraction -/

/-- Suffix of the list following the last occurrence of `%2F`, if any. -/
def afterLastPct : List Char → Option (List Char)
  | [] => none
  | c :: cs =>
    match afterLastPct cs with
    | some r => some r
    | none => dropPre "%2F".toList (c :: cs)

/-- Modelled from the claim's wording, for refutation: the identifier is
everything between the LAST `%2F` and the first following dot, the
extension is the token between that dot and `.enc`. -/
def claimExtract (url : String) : Option (String × String) :=
  match afterLastPct url.toList with
  | none => none
  | some r =>
    let fid := r.takeWhile (fun c => c ≠ '.')
    if fid.isEmpty then none
    else
      match dropPre ['.'] (r.drop fid.length) with
      | none => none
      | some s3 =>
        let ext := s3.takeWhile (fun c => c ≠ '.')
        if ext.isEmpty then none
        else
          match dropPre ".enc".toList (s3.drop ext.length) with
          | none => none
          | some _ => some (⟨fid⟩, ⟨'.' :: ext⟩)

/-- Claim C2, counterexample: in
`…/imgs%2Fapp%2Fa%2Fb%2Fc.png.enc` the greedy group `[^.]+` starts right
after the first percent-free segment (`a`), so the code extracts the
identifier `b%2Fc`, which itself contains `%2F`; the claim's description
(everything between the LAST `%2F` and the first dot) would give `c`. -/
theorem c2_counterexample :
    extractFirebaseId
      "https://firebasestorage.x/imgs%2Fapp%2Fa%2Fb%2Fc.png.enc" =
      some ("b%2Fc", ".png") ∧
    claimExtract
      "https://firebasestorage.x/imgs%2Fapp%2Fa%2Fb%2Fc.png.enc" =
      some ("c", ".png") ∧
    ("b%2Fc" : String) ≠ "c" := by
  refine ⟨by decide, by decide, by decide⟩

theorem dropPre_append (p t : List Char) : dropPre p (p ++ t) = some t := by
  induction p with
  | nil => rfl
  | cons c cs ih =>
    show dropPre (c :: cs) (c :: (cs ++ t)) = some t
    unfold dropPre
    rw [if_pos rfl]
    exact ih

theorem takeWhile_append_stop (P : Char → Bool) (a : List Char)
    (ha : ∀ c ∈ a, P c = true) (b : Char) (hb : P b = false) (t : List Char) :
    (a ++ b :: t).takeWhile P = a := by
  induction a with
  | nil => simp [List.takeWhile_cons, hb]
  | cons x xs ih =>
    have hx : P x = true := ha x (List.mem_cons_self x xs)
    simp only [List.cons_append, List.takeWhile_cons, hx, if_true]
    rw [ih (fun c hc => ha c (List.mem_cons_of_mem x hc))]

/-- One anchored step of the extraction regex: at a position where the
literal anchor is followed by a percent-free segment, `%2F`, a dot-free
identifier, a dot, a dot-free extension and `.enc`, the match succeeds
and returns exactly that identifier and that extension. -/
theorem matchAt_anchored (seg fid ext rest : List Char)
    (hseg : seg ≠ []) (hsegP : ∀ c ∈ seg, c ≠ '%')
    (hfid : fid ≠ []) (hfidP : ∀ c ∈ fid, c ≠ '.')
    (hext : ext ≠ []) (hextP : ∀ c ∈ ext, c ≠ '.') :
    matchAt ("imgs%2Fapp%2F".toList ++ (seg ++ ('%' :: '2' :: 'F' ::
      (fid ++ ('.' :: (ext ++ ('.' :: 'e' :: 'n' :: 'c' :: rest))))))) =
      some (⟨fid⟩, ⟨'.' :: ext⟩) := by
  have hsegT : (seg ++ ('%' :: '2' :: 'F' ::
      (fid ++ ('.' :: (ext ++ ('.' :: 'e' :: 'n' :: 'c' :: rest)))))).takeWhile
        (fun c => c ≠ '%') = seg := by
    refine takeWhile_append_stop _ seg (fun c hc => by simp [hsegP c hc]) '%'
      (by simp) _
  have hfidT : (fid ++ ('.' :: (ext ++ ('.' :: 'e' :: 'n' :: 'c' ::
      rest)))).takeWhile (fun c => c ≠ '.') = fid := by
    refine takeWhile_append_stop _ fid (fun c hc => by simp [hfidP c hc]) '.'
      (by simp) _
  have hextT : (ext ++ ('.' :: 'e' :: 'n' :: 'c' :: rest)).takeWhile
      (fun c => c ≠ '.') = ext := by
    refine takeWhile_append_stop _ ext (fun c hc => by simp [hextP c hc]) '.'
      (by simp) _
  have hsegE : seg.isEmpty = false := by simp [List.isEmpty_iff, hseg]
  have hfidE : fid.isEmpty = false := by simp [List.isEmpty_iff, hfid]
  have hextE : ext.isEmpty = false := by simp [List.isEmpty_iff, hext]
  unfold matchAt
  rw [dropPre_append]
  simp only [hsegT, hsegE, Bool.false_eq_true, if_false]
  rw [List.drop_left]
  rw [show ('%' :: '2' :: 'F' :: (fid ++ ('.' :: (ext ++ ('.' :: 'e' ::
    'n' :: 'c' :: rest))))) = "%2F".toList ++ (fid ++ ('.' :: (ext ++
    ('.' :: 'e' :: 'n' :: 'c' :: rest)))) from rfl]
  rw [dropPre_append]
  simp only [hfidT, hfidE, Bool.false_eq_true, if_false]
  rw [List.drop_left]
  rw [show ('.' :: (ext ++ ('.' :: 'e' :: 'n' :: 'c' :: rest))) =
    ['.'] ++ (ext ++ ('.' :: 'e' :: 'n' :: 'c' :: rest)) from rfl]
  rw [dropPre_append]
  simp only [hextT, hextE, Bool.false_eq_true, if_false]
  rw [List.drop_left]
  rw [show ('.' :: 'e' :: 'n' :: 'c' :: rest) = ".enc".toList ++ rest
    from rfl]
  rw [dropPre_append]

/-- Claim C2 (amended): inside a recognized wrapper, the code anchors at
`imgs%2Fapp%2F`, skips ONE percent-free segment and its `%2F`, and then
takes as identifier the maximal dot-free run (which may itself contain
further `%2F`), as extension the dot-free token after the following dot,
and requires `.enc` directly afterwards; a URL whose identifier cannot be
extracted is left untouched and counted neither as updated nor as
not-found. -/
theorem c2_amended (seg fid ext rest : List Char)
    (hseg : seg ≠ []) (hsegP : ∀ c ∈ seg, c ≠ '%')
    (hfid : fid ≠ []) (hfidP : ∀ c ∈ fid, c ≠ '.')
    (hext : ext ≠ []) (hextP : ∀ c ∈ ext, c ≠ '.') :
    extractFirebaseId ⟨"imgs%2Fapp%2F".toList ++ (seg ++ ('%' :: '2' :: 'F' ::
      (fid ++ ('.' :: (ext ++ ('.' :: 'e' :: 'n' :: 'c' :: rest))))))⟩ =
      some (⟨fid⟩, ⟨'.' :: ext⟩) ∧
    (∀ (e : REnv) (m : MatchData) (text : String) (st : Stats) (mod : Bool),
      extractFirebaseId m.url = none →
      processMatch e m (text, st, mod) = (text, st, mod)) := by
  constructor
  · have hm : matchAt ('i' :: ("mgs%2Fapp%2F".toList ++ (seg ++ ('%' :: '2' ::
        'F' :: (fid ++ ('.' :: (ext ++ ('.' :: 'e' :: 'n' :: 'c' ::
        rest)))))))) = some (⟨fid⟩, ⟨'.' :: ext⟩) :=
      matchAt_anchored seg fid ext rest hseg hsegP hfid hfidP hext hextP
    show searchIn ('i' :: ("mgs%2Fapp%2F".toList ++ (seg ++ ('%' :: '2' ::
      'F' :: (fid ++ ('.' :: (ext ++ ('.' :: 'e' :: 'n' :: 'c' ::
      rest)))))))) = some (⟨fid⟩, ⟨'.' :: ext⟩)
    rw [searchIn, hm]
  · intro e m text st mod hnone
    unfold processMatch
    rw [hnone]

/-- Claim C2 (amended), witness: the spec's example identifier, and an
unextractable URL left untouched. -/
theorem c2_amended_witness :
    extractFirebaseId ⟨"imgs%2Fapp%2F".toList ++ ("xyz".toList ++ ('%' ::
      '2' :: 'F' :: ("abC123".toList ++ ('.' :: ("png".toList ++ ('.' ::
      'e' :: 'n' :: 'c' :: "?alt=media".toList))))))⟩ =
      some ("abC123", ".png") ∧
    processMatch ⟨"p", [], [], []⟩ ⟨.link, "", "nope", "<nope>"⟩
      ("text", {}, false) = ("text", {}, false) := by
  constructor
  · exact (c2_amended "xyz".toList "abC123".toList "png".toList
      "?alt=media".toList (by decide) (by decide) (by decide) (by decide)
      (by decide) (by decide)).1
  · exact (c2_amended ["x"].head!.toList "a".toList "b".toList []
      (by decide) (by decide) (by decide) (by decide) (by decide)
      (by decide)).2 ⟨"p", [], [], []⟩ ⟨.link, "", "nope", "<nope>"⟩
      "text" {} false (by decide)

/-! ## Claim C7: unresolved references -/

/-- Claim C7: when the extracted identifier is absent from the mapping and
the filename matcher finds no local file whose name is recorded in
`uploaded_files`, the rewriter bumps `links_not_found` by one, leaves the
text untouched, leaves every other counter and the modified flag alone,
and returns normally. -/
theorem c7_confirmed (e : REnv) (m : MatchData) (text : String) (st : Stats)
    (mod : Bool) (fid ext : String)
    (hex : extractFirebaseId m.url = some (fid, ext))
    (hmap : dlookup e.mapping fid = none)
    (hfile : ∀ f, findFileForFirebaseId e.cache fid ext = some f →
      dlookup e.uploadedF f.name = none) :
    processMatch e m (text, st, mod) =
      (text, { st with notFound := st.notFound + 1 }, mod) := by
  have hres : resolveRef e fid ext = none := by
    cases hf : findFileForFirebaseId e.cache fid ext with
    | none => simp only [resolveRef, hmap, hf]
    | some f => simp only [resolveRef, hmap, hf, hfile f hf]
  simp only [processMatch, hex, hres]

/-- Claim C7, witness: a reference to `missing.png` with an empty mapping,
empty cache and empty ledger is counted as not found and the text is kept. -/
theorem c7_witness :
    processMatch ⟨"p", [], [], []⟩
      ⟨.image, "alt",
        "https://firebasestorage.googleapis.com/v0/b/a/o/imgs%2Fapp%2Fxyz%2Fmissing.png.enc?alt=media",
        "![alt](https://firebasestorage.googleapis.com/v0/b/a/o/imgs%2Fapp%2Fxyz%2Fmissing.png.enc?alt=media)"⟩
      ("body text", {}, false) =
      ("body text", ⟨0, 0, 0, 0, 0, 1⟩, false) := by
  exact c7_confirmed ⟨"p", [], [], []⟩ _ "body text" {} false "missing" ".png"
    (by decide) (by decide)
    (by
      intro f hf
      have hn : findFileForFirebaseId ([] : FileCache) "missing" ".png" =
        none := by decide
      rw [hn] at hf
      exact Option.noConfusion hf)

/-! ## Claim C8: batch checkpoints -/

/-- Claim C8, counterexample: with `batchSize = 1` and a single file that
is already present in the ledger, the file is skipped, and — because the
`continue` bypasses the checkpoint — NO intermediate save happens at index
1 even though 1 is a batch boundary; only the final save is written.  The
claim (checkpoint regardless of skip) predicts two saves. -/
theorem c8_counterexample :
    (processFiles { cfg0 with batchSize := 1 } (fun _ _ => true)
      [⟨"f1.png"⟩] ⟨[("f1.png", "f1.png")], []⟩).saves =
      [⟨[("f1.png", "f1.png")], []⟩] ∧
    (processFiles { cfg0 with batchSize := 1 } (fun _ _ => true)
      [⟨"f1.png"⟩] ⟨[("f1.png", "f1.png")], []⟩).stats.skipped = 1 ∧
    (1 : Nat) % 1 = 0 ∧
    (processFiles { cfg0 with batchSize := 1 } (fun _ _ => true)
      [⟨"f1.png"⟩] ⟨[("f1.png", "f1.png")], []⟩).saves.length ≠ 2 := by
  refine ⟨by decide, by decide, by decide, by decide⟩

/-- A file already recorded in `uploaded_files` is skipped: only the
skip counter changes, and no checkpoint is written. -/
theorem processOne_skip (cfg : Config) (ok : LFile → String → Bool)
    (idx : Nat) (f : LFile) (st : PState)
    (h : dmem st.uploadedF f.name = true) :
    processOne cfg ok idx f st =
      { st with stats := { st.stats with skipped := st.stats.skipped + 1 } } := by
  unfold processOne
  rw [h]
  rfl

/-- Claim C8 (amended): the ledger is persisted after every `batchSize`-th
file PROVIDED that file was not skipped (a skipped file bypasses the
checkpoint), it is never persisted mid-loop at a non-boundary index, the
persisted snapshot carries the uploads recorded so far, and one final save
follows the loop; in particular with `batchSize = 2` and five fresh files
exactly two intermediate saves occur (after files 2 and 4), each holding
the uploads recorded so far. -/
theorem c8_amended :
    (∀ (cfg : Config) (ok : LFile → String → Bool) (idx : Nat) (f : LFile)
      (st : PState), dmem st.uploadedF f.name = true →
      processOne cfg ok idx f st =
        { st with stats := { st.stats with skipped := st.stats.skipped + 1 } }) ∧
    (∀ (cfg : Config) (ok : LFile → String → Bool) (idx : Nat) (f : LFile)
      (st : PState), dmem st.uploadedF f.name = false →
      idx % cfg.batchSize = 0 →
      (processOne cfg ok idx f st).saves = st.saves ++
        [⟨(processOne cfg ok idx f st).uploadedF,
          (processOne cfg ok idx f st).mapping⟩]) ∧
    (∀ (cfg : Config) (ok : LFile → String → Bool) (idx : Nat) (f : LFile)
      (st : PState), dmem st.uploadedF f.name = false →
      idx % cfg.batchSize ≠ 0 →
      (processOne cfg ok idx f st).saves = st.saves) ∧
    ((processFiles { cfg0 with batchSize := 2 } (fun _ _ => true)
        [⟨"a.png"⟩, ⟨"b.png"⟩, ⟨"c.png"⟩, ⟨"d.png"⟩, ⟨"e.png"⟩]
        ⟨[], []⟩).saves.map (fun l => l.uploaded_files.map (fun p => p.1)) =
      [["a.png", "b.png"],
       ["a.png", "b.png", "c.png", "d.png"],
       ["a.png", "b.png", "c.png", "d.png", "e.png"]]) := by
  refine ⟨fun cfg ok idx f st h => processOne_skip cfg ok idx f st h, ?_, ?_,
    by decide⟩
  · intro cfg ok idx f st h hb
    have hb' : (idx % cfg.batchSize == 0) = true := by simp [hb]
    unfold processOne
    rw [h]
    simp only [Bool.false_eq_true, if_false, hb', if_true]
    cases hok : ok f (targetNameFor cfg f) <;>
      simp [storeSuccess, snapshot]
  · intro cfg ok idx f st h hb
    have hb' : (idx % cfg.batchSize == 0) = false := by simp [hb]
    unfold processOne
    rw [h]
    simp only [Bool.false_eq_true, if_false, hb']
    cases hok : ok f (targetNameFor cfg f) <;> simp [storeSuccess]

/-- Claim C8 (amended), witness: a skipped file at a batch boundary saves
nothing; a fresh file at a batch boundary saves the ledger so far. -/
theorem c8_amended_witness :
    processOne { cfg0 with batchSize := 1 } (fun _ _ => true) 1 ⟨"f1.png"⟩
      ⟨[], [("f1.png", "f1.png")], {}, []⟩ =
      ⟨[], [("f1.png", "f1.png")], ⟨0, 0, 1, 0, 0, 0⟩, []⟩ ∧
    (processOne { cfg0 with batchSize := 2 } (fun _ _ => true) 2 ⟨"g.png"⟩
      ⟨[], [], {}, []⟩).saves = [] ++
      [⟨(processOne { cfg0 with batchSize := 2 } (fun _ _ => true) 2 ⟨"g.png"⟩
          ⟨[], [], {}, []⟩).uploadedF,
        (processOne { cfg0 with batchSize := 2 } (fun _ _ => true) 2 ⟨"g.png"⟩
          ⟨[], [], {}, []⟩).mapping⟩] := by
  constructor
  · exact c8_amended.1 { cfg0 with batchSize := 1 } (fun _ _ => true) 1
      ⟨"f1.png"⟩ ⟨[], [("f1.png", "f1.png")], {}, []⟩ (by decide)
  · exact c8_amended.2.1 { cfg0 with batchSize := 2 } (fun _ _ => true) 2
      ⟨"g.png"⟩ ⟨[], [], {}, []⟩ (by decide) (by decide)

/-! ## Claim C9: the rewriter touches only `string` fields -/

mutual

/-- Rewriting a block preserves its skeleton. -/
theorem processBlock_skel (e : REnv) (fi : String → List MatchData) :
    ∀ (b : Block) (st : Stats), ((processBlock e fi b st).1).skel = b.skel
  | .node s? extra none, _ => by
    simp [processBlock, Block.skel]
  | .node s? extra (some ch), st => by
    simp only [processBlock, Block.skel]
    rw [processChildren_skel e fi ch _]

/-- Rewriting a list of blocks preserves the list of skeletons. -/
theorem processChildren_skel (e : REnv) (fi : String → List MatchData) :
    ∀ (l : List Block) (st : Stats),
      skelList (processChildren e fi l st).1 = skelList l
  | [], _ => by simp [processChildren]
  | b :: bs, st => by
    simp only [processChildren, skelList]
    rw [processBlock_skel e fi b st, processChildren_skel e fi bs _]

end

theorem skelList_length : ∀ l : List Block, (skelList l).length = l.length
  | [] => rfl
  | _ :: bs => by simp [skelList, skelList_length bs]

theorem updatePages_skel (e : REnv) (fi : String → List MatchData)
    (pages : List Page) :
    ∀ st : Stats,
      ((updatePages e fi pages st).1).map Page.skel = pages.map Page.skel := by
  induction pages with
  | nil => intro st; simp [updatePages]
  | cons p ps ih =>
    intro st
    cases hch : p.children? with
    | none =>
      simp only [updatePages, hch, List.map_cons]
      rw [ih _]
    | some ch =>
      simp only [updatePages, hch, List.map_cons]
      rw [ih _]
      simp only [Page.skel, hch, List.cons.injEq, and_true, Option.map]
      rw [processChildren_skel e fi ch st]

/-- Claim C9: for every input document tree the rewriter changes only
`string` fields — the page list, every block's `children` list (presence,
membership and order) and every other field are identical before and
after, every page and block skeleton is preserved, and each child list
keeps its length (each child is processed exactly once, in order). -/
theorem c9_confirmed (e : REnv) (fi : String → List MatchData) :
    (∀ (pages : List Page) (st : Stats),
      ((updatePages e fi pages st).1).map Page.skel = pages.map Page.skel) ∧
    (∀ (b : Block) (st : Stats),
      ((processBlock e fi b st).1).skel = b.skel) ∧
    (∀ (l : List Block) (st : Stats),
      (processChildren e fi l st).1.length = l.length) := by
  refine ⟨fun pages st => updatePages_skel e fi pages st,
    fun b st => processBlock_skel e fi b st, fun l st => ?_⟩
  have h := processChildren_skel e fi l st
  have h1 := skelList_length (processChildren e fi l st).1
  have h2 := skelList_length l
  rw [h] at h1
  omega

/-! ## Claim C6: idempotence of the upload coordinator -/

/-- Membership in `uploaded_files` survives one loop step. -/
theorem processOne_uploadedF_mono (cfg : Config) (ok : LFile → String → Bool)
    (idx : Nat) (f : LFile) (st : PState) (k : String)
    (h : dmem st.uploadedF k = true) :
    dmem (processOne cfg ok idx f st).uploadedF k = true := by
  unfold processOne
  by_cases hs : dmem st.uploadedF f.name = true
  · simp only [hs, if_true]
    exact h
  · have hs' : dmem st.uploadedF f.name = false := by simpa using hs
    simp only [hs', Bool.false_eq_true, if_false]
    cases hok : ok f (targetNameFor cfg f) with
    | true =>
      by_cases hb : (idx % cfg.batchSize == 0) = true
      · simp only [hb, if_true, storeSuccess]
        exact dmem_dinsert_mono _ _ _ _ h
      · have hb' : (idx % cfg.batchSize == 0) = false := by simpa using hb
        simp only [hb', Bool.false_eq_true, if_false, storeSuccess]
        exact dmem_dinsert_mono _ _ _ _ h
    | false =>
      by_cases hb : (idx % cfg.batchSize == 0) = true
      · simp only [hb, if_true]
        exact h
      · have hb' : (idx % cfg.batchSize == 0) = false := by simpa using hb
        simp only [hb', Bool.false_eq_true, if_false]
        exact h

/-- Membership in `uploaded_files` survives the whole loop. -/
theorem goFiles_uploadedF_mono (cfg : Config) (ok : LFile → String → Bool) :
    ∀ (fs : List LFile) (idx : Nat) (st : PState) (k : String),
      dmem st.uploadedF k = true →
      dmem (goFiles cfg ok idx fs st).uploadedF k = true
  | [], _, _, _, h => h
  | f :: fs, idx, st, k, h =>
    goFiles_uploadedF_mono cfg ok fs (idx + 1) (processOne cfg ok idx f st) k
      (processOne_uploadedF_mono cfg ok idx f st k h)

/-- With an always-successful store, a processed file's name is recorded. -/
theorem processOne_self_mem (cfg : Config) (idx : Nat) (f : LFile)
    (st : PState) :
    dmem (processOne cfg (fun _ _ => true) idx f st).uploadedF f.name =
      true := by
  unfold processOne
  by_cases hs : dmem st.uploadedF f.name = true
  · simp only [hs, if_true]
  · have hs' : dmem st.uploadedF f.name = false := by simpa using hs
    simp only [hs', Bool.false_eq_true, if_false, if_true]
    by_cases hb : (idx % cfg.batchSize == 0) = true
    · simp only [hb, if_true, storeSuccess]
      exact dmem_dinsert_self _ _ _
    · have hb' : (idx % cfg.batchSize == 0) = false := by simpa using hb
      simp only [hb', Bool.false_eq_true, if_false, storeSuccess]
      exact dmem_dinsert_self _ _ _

/-- After an all-successful run every processed file is recorded. -/
theorem goFiles_covers (cfg : Config) :
    ∀ (fs : List LFile) (idx : Nat) (st : PState) (g : LFile), g ∈ fs →
      dmem (goFiles cfg (fun _ _ => true) idx fs st).uploadedF g.name = true := by
  intro fs
  induction fs with
  | nil => intro idx st g hg; cases hg
  | cons f fs ih =>
    intro idx st g hg
    rcases List.mem_cons.mp hg with hgf | hgfs
    · subst hgf
      exact goFiles_uploadedF_mono cfg _ fs (idx + 1) _ g.name
        (processOne_self_mem cfg idx g st)
    · exact ih (idx + 1) _ g hgfs

/-- When every file is already recorded, the loop only counts skips. -/
theorem goFiles_allskip (cfg : Config) (ok : LFile → String → Bool) :
    ∀ (fs : List LFile) (idx : Nat) (st : PState),
      (∀ f ∈ fs, dmem st.uploadedF f.name = true) →
      goFiles cfg ok idx fs st =
        { st with stats :=
          { st.stats with skipped := st.stats.skipped + fs.length } } := by
  intro fs
  induction fs with
  | nil =>
    intro idx st _
    simp [goFiles]
  | cons f fs ih =>
    intro idx st h
    show goFiles cfg ok (idx + 1) fs (processOne cfg ok idx f st) = _
    rw [processOne_skip cfg ok idx f st (h f (List.mem_cons_self f fs))]
    rw [ih (idx + 1)
      { st with stats := { st.stats with skipped := st.stats.skipped + 1 } }
      (fun g hg => h g (List.mem_cons_of_mem f hg))]
    have harith : st.stats.skipped + 1 + fs.length =
        st.stats.skipped + (fs.length + 1) := by omega
    simp only [List.length_cons, harith]

/-- The last saved ledger of a nonempty run is the final in-memory state. -/
theorem processFiles_saves_last (cfg : Config) (ok : LFile → String → Bool)
    (dirFiles : List LFile) (ledger0 : Ledger)
    (hne : dirFiles.filter (fun f => !(startsW f.name ".")) ≠ []) :
    (processFiles cfg ok dirFiles ledger0).saves.getLastD ledger0 =
      ⟨(processFiles cfg ok dirFiles ledger0).uploadedF,
        (processFiles cfg ok dirFiles ledger0).mapping⟩ := by
  unfold processFiles
  have hie : (dirFiles.filter (fun f => !(startsW f.name "."))).isEmpty =
      false := by simp [List.isEmpty_iff, hne]
  simp only [hie, Bool.false_eq_true, if_false]
  rw [List.getLastD_concat]
  rfl

/-- A run whose every (visible) file is already in the ledger uploads
nothing, fails nothing, skips everything, and leaves the recorded
uploads unchanged. -/
theorem processFiles_all_present (cfg : Config) (ok : LFile → String → Bool)
    (dirFiles : List LFile) (L : Ledger)
    (hpres : ∀ f ∈ dirFiles.filter (fun f => !(startsW f.name ".")),
      dmem L.uploaded_files f.name = true) :
    (processFiles cfg ok dirFiles L).stats.uploaded = 0 ∧
    (processFiles cfg ok dirFiles L).stats.failed = 0 ∧
    (processFiles cfg ok dirFiles L).stats.skipped =
      (dirFiles.filter (fun f => !(startsW f.name "."))).length ∧
    (processFiles cfg ok dirFiles L).uploadedF = L.uploaded_files := by
  unfold processFiles
  by_cases hie : (dirFiles.filter (fun f => !(startsW f.name "."))).isEmpty
  · have hn : dirFiles.filter (fun f => !(startsW f.name ".")) = [] := by
      simpa [List.isEmpty_iff] using hie
    simp only [hie, if_true, hn]
    exact ⟨rfl, rfl, rfl, rfl⟩
  · have hie' : (dirFiles.filter (fun f => !(startsW f.name "."))).isEmpty =
        false := by simpa using hie
    simp only [hie', Bool.false_eq_true, if_false]
    rw [goFiles_allskip cfg ok _ 1 _ (fun f hf => hpres f hf)]
    exact ⟨rfl, rfl, by simp, rfl⟩

/-- Claim C6: a second run of the upload coordinator over the unchanged
file set, loading the ledger persisted by a completed first run whose
uploads all succeeded, uploads zero files (whatever the second run's
upload outcomes would be): every visible file is skipped and counted as
skipped, and the recorded uploads are unchanged. -/
theorem c6_confirmed (cfg : Config) (ok2 : LFile → String → Bool)
    (dirFiles : List LFile) (ledger0 : Ledger)
    (hne : dirFiles.filter (fun f => !(startsW f.name ".")) ≠ []) :
    (processFiles cfg ok2 dirFiles
      ((processFiles cfg (fun _ _ => true) dirFiles ledger0).saves.getLastD
        ledger0)).stats.uploaded = 0 ∧
    (processFiles cfg ok2 dirFiles
      ((processFiles cfg (fun _ _ => true) dirFiles ledger0).saves.getLastD
        ledger0)).stats.failed = 0 ∧
    (processFiles cfg ok2 dirFiles
      ((processFiles cfg (fun _ _ => true) dirFiles ledger0).saves.getLastD
        ledger0)).stats.skipped =
      (dirFiles.filter (fun f => !(startsW f.name "."))).length ∧
    (processFiles cfg ok2 dirFiles
      ((processFiles cfg (fun _ _ => true) dirFiles ledger0).saves.getLastD
        ledger0)).uploadedF =
      (processFiles cfg (fun _ _ => true) dirFiles ledger0).uploadedF := by
  have hlast := processFiles_saves_last cfg (fun _ _ => true) dirFiles
    ledger0 hne
  rw [hlast]
  have hcov : ∀ f ∈ dirFiles.filter (fun f => !(startsW f.name ".")),
      dmem (processFiles cfg (fun _ _ => true) dirFiles ledger0).uploadedF
        f.name = true := by
    intro f hf
    unfold processFiles
    have hie : (dirFiles.filter (fun g => !(startsW g.name "."))).isEmpty =
        false := by simp [List.isEmpty_iff, hne]
    simp only [hie, Bool.false_eq_true, if_false]
    exact goFiles_covers cfg _ 1 _ f hf
  exact processFiles_all_present cfg ok2 dirFiles _ hcov

/-- Claim C6, witness: two files uploaded in a first run are both skipped
by a second run, even one whose uploads would all fail. -/
theorem c6_witness :
    (processFiles cfg0 (fun _ _ => false) [⟨"a.png"⟩, ⟨"b.png"⟩]
      ((processFiles cfg0 (fun _ _ => true) [⟨"a.png"⟩, ⟨"b.png"⟩]
        ⟨[], []⟩).saves.getLastD ⟨[], []⟩)).stats.uploaded = 0 ∧
    (processFiles cfg0 (fun _ _ => false) [⟨"a.png"⟩, ⟨"b.png"⟩]
      ((processFiles cfg0 (fun _ _ => true) [⟨"a.png"⟩, ⟨"b.png"⟩]
        ⟨[], []⟩).saves.getLastD ⟨[], []⟩)).stats.skipped = 2 := by
  have h := c6_confirmed cfg0 (fun _ _ => false) [⟨"a.png"⟩, ⟨"b.png"⟩]
    ⟨[], []⟩ (by decide)
  refine ⟨h.1, ?_⟩
  rw [h.2.2.1]
  decide

/-! ## Claim C1: every resolved replacement URL -/

/-- Mapping after a fresh, successful upload step. -/
theorem processOne_fresh_mapping (cfg : Config) (ok : LFile → String → Bool)
    (idx : Nat) (f : LFile) (st : PState)
    (hs : dmem st.uploadedF f.name = false)
    (hok : ok f (targetNameFor cfg f) = true) :
    (processOne cfg ok idx f st).mapping =
      dinsert (dinsert st.mapping (pyReplace f.stem "-image" "")
          ⟨f.name, targetNameFor cfg f,
            cfg.pubUrl ++ "/" ++ targetNameFor cfg f, idx⟩) f.stem
        ⟨f.name, targetNameFor cfg f,
          cfg.pubUrl ++ "/" ++ targetNameFor cfg f, idx⟩ := by
  unfold processOne
  simp only [hs, Bool.false_eq_true, if_false, hok, if_true]
  by_cases hb : (idx % cfg.batchSize == 0) = true
  · simp only [hb, if_true, storeSuccess]
  · have hb' : (idx % cfg.batchSize == 0) = false := by simpa using hb
    simp only [hb', Bool.false_eq_true, if_false, storeSuccess]

/-- Uploaded-files dict after a fresh, successful upload step. -/
theorem processOne_fresh_uploadedF (cfg : Config) (ok : LFile → String → Bool)
    (idx : Nat) (f : LFile) (st : PState)
    (hs : dmem st.uploadedF f.name = false)
    (hok : ok f (targetNameFor cfg f) = true) :
    (processOne cfg ok idx f st).uploadedF =
      dinsert st.uploadedF f.name (targetNameFor cfg f) := by
  unfold processOne
  simp only [hs, Bool.false_eq_true, if_false, hok, if_true]
  by_cases hb : (idx % cfg.batchSize == 0) = true
  · simp only [hb, if_true, storeSuccess]
  · have hb' : (idx % cfg.batchSize == 0) = false := by simpa using hb
    simp only [hb', Bool.false_eq_true, if_false, storeSuccess]

/-- A failed upload changes neither the mapping nor the uploaded files. -/
theorem processOne_fail_fields (cfg : Config) (ok : LFile → String → Bool)
    (idx : Nat) (f : LFile) (st : PState)
    (hs : dmem st.uploadedF f.name = false)
    (hok : ok f (targetNameFor cfg f) = false) :
    (processOne cfg ok idx f st).mapping = st.mapping ∧
    (processOne cfg ok idx f st).uploadedF = st.uploadedF := by
  unfold processOne
  simp only [hs, Bool.false_eq_true, if_false, hok]
  by_cases hb : (idx % cfg.batchSize == 0) = true
  · simp only [hb, if_true]
    exact ⟨trivial, trivial⟩
  · have hb' : (idx % cfg.batchSize == 0) = false := by simpa using hb
    simp only [hb', Bool.false_eq_true, if_false]
    exact ⟨trivial, trivial⟩

/-- The well-formedness of `self.mapping` relative to `uploaded_files`:
every stored record's public URL is the public base, a slash, and its
target name, and that target name is recorded in `uploaded_files`. -/
def mappingWF (pubUrl : String) (mapping : Dict URecord)
    (uploadedF : Dict String) : Prop :=
  ∀ k r, dlookup mapping k = some r →
    r.public_url = pubUrl ++ "/" ++ r.target_name ∧
    ∃ n, dlookup uploadedF n = some r.target_name

/-- One loop step preserves the mapping well-formedness. -/
theorem processOne_mappingWF (cfg : Config) (ok : LFile → String → Bool)
    (idx : Nat) (f : LFile) (st : PState)
    (hinv : mappingWF cfg.pubUrl st.mapping st.uploadedF) :
    mappingWF cfg.pubUrl (processOne cfg ok idx f st).mapping
      (processOne cfg ok idx f st).uploadedF := by
  by_cases hs : dmem st.uploadedF f.name = true
  · rw [processOne_skip cfg ok idx f st hs]
    exact hinv
  · have hs' : dmem st.uploadedF f.name = false := by simpa using hs
    cases hok : ok f (targetNameFor cfg f) with
    | false =>
      obtain ⟨hm, hu⟩ := processOne_fail_fields cfg ok idx f st hs' hok
      rw [hm, hu]
      exact hinv
    | true =>
      rw [processOne_fresh_mapping cfg ok idx f st hs' hok,
        processOne_fresh_uploadedF cfg ok idx f st hs' hok]
      intro k r hkr
      by_cases hk1 : k = f.stem
      · subst hk1
        rw [dlookup_dinsert_self] at hkr
        cases hkr
        exact ⟨rfl, f.name, dlookup_dinsert_self _ _ _⟩
      · rw [dlookup_dinsert_ne _ _ hk1] at hkr
        by_cases hk2 : k = pyReplace f.stem "-image" ""
        · subst hk2
          rw [dlookup_dinsert_self] at hkr
          cases hkr
          exact ⟨rfl, f.name, dlookup_dinsert_self _ _ _⟩
        · rw [dlookup_dinsert_ne _ _ hk2] at hkr
          obtain ⟨hurl, n, hn⟩ := hinv k r hkr
          refine ⟨hurl, n, ?_⟩
          have hnf : n ≠ f.name := by
            intro hc
            subst hc
            rw [dmem_false_lookup hs'] at hn
            exact Option.noConfusion hn
          rw [dlookup_dinsert_ne _ _ hnf]
          exact hn

/-- The loop preserves the mapping well-formedness. -/
theorem goFiles_mappingWF (cfg : Config) (ok : LFile → String → Bool) :
    ∀ (fs : List LFile) (idx : Nat) (st : PState),
      mappingWF cfg.pubUrl st.mapping st.uploadedF →
      mappingWF cfg.pubUrl (goFiles cfg ok idx fs st).mapping
        (goFiles cfg ok idx fs st).uploadedF
  | [], _, _, h => h
  | f :: fs, idx, st, h =>
    goFiles_mappingWF cfg ok fs (idx + 1) (processOne cfg ok idx f st)
      (processOne_mappingWF cfg ok idx f st h)

/-- The mapping produced by `process_files` is well-formed: it starts
empty and every record is inserted together with its ledger entry. -/
theorem processFiles_mappingWF (cfg : Config) (ok : LFile → String → Bool)
    (dirFiles : List LFile) (ledger0 : Ledger) :
    mappingWF cfg.pubUrl (processFiles cfg ok dirFiles ledger0).mapping
      (processFiles cfg ok dirFiles ledger0).uploadedF := by
  unfold processFiles
  by_cases hie : (dirFiles.filter (fun f => !(startsW f.name "."))).isEmpty
  · simp only [hie, if_true]
    intro k r hkr
    exact Option.noConfusion hkr
  · have hie' : (dirFiles.filter (fun f => !(startsW f.name "."))).isEmpty =
        false := by simpa using hie
    simp only [hie', Bool.false_eq_true, if_false]
    exact goFiles_mappingWF cfg ok _ 1 _ (fun k r hkr => Option.noConfusion hkr)

/-- Claim C1: every reference the rewriter resolves — via the direct
mapping lookup or via the matcher-plus-ledger fallback — is replaced by
the same syntactic wrapper (alt text verbatim) around a URL that is
exactly the public base, `/`, and a target name recorded in the ledger's
`uploaded_files`, and `links_updated` is incremented. -/
theorem c1_confirmed (cfg : Config) (ok : LFile → String → Bool)
    (dirFiles : List LFile) (ledger0 : Ledger) (cache : FileCache)
    (m : MatchData) (text : String) (st : Stats) (mod : Bool)
    (fid ext url : String)
    (hex : extractFirebaseId m.url = some (fid, ext))
    (hres : resolveRef ⟨cfg.pubUrl,
      (processFiles cfg ok dirFiles ledger0).mapping,
      (processFiles cfg ok dirFiles ledger0).uploadedF, cache⟩ fid ext =
      some url) :
    (∃ n t, dlookup (processFiles cfg ok dirFiles ledger0).uploadedF n =
      some t ∧ url = cfg.pubUrl ++ "/" ++ t) ∧
    processMatch ⟨cfg.pubUrl,
      (processFiles cfg ok dirFiles ledger0).mapping,
      (processFiles cfg ok dirFiles ledger0).uploadedF, cache⟩ m
      (text, st, mod) =
      (pyReplace text m.whole (wrapperText m.kind m.alt url),
       { st with updated := st.updated + 1 }, true) := by
  constructor
  · have hwf := processFiles_mappingWF cfg ok dirFiles ledger0
    unfold resolveRef at hres
    cases hml : dlookup (processFiles cfg ok dirFiles ledger0).mapping fid with
    | some r =>
      rw [hml] at hres
      have hr : url = r.public_url := by
        have : some r.public_url = some url := hres
        exact (Option.some.injEq _ _ ▸ this).symm
      obtain ⟨hurl, n, hn⟩ := hwf fid r hml
      exact ⟨n, r.target_name, hn, by rw [hr, hurl]⟩
    | none =>
      rw [hml] at hres
      have hres2 : (match findFileForFirebaseId cache fid ext with
          | some f =>
            (match dlookup (processFiles cfg ok dirFiles ledger0).uploadedF
                f.name with
            | some target => some (cfg.pubUrl ++ "/" ++ target)
            | none => none)
          | none => (none : Option String)) = some url := hres
      cases hff : findFileForFirebaseId cache fid ext with
      | none =>
        rw [hff] at hres2
        exact Option.noConfusion hres2
      | some f =>
        rw [hff] at hres2
        have hres3 : (match dlookup
            (processFiles cfg ok dirFiles ledger0).uploadedF f.name with
          | some target => some (cfg.pubUrl ++ "/" ++ target)
          | none => (none : Option String)) = some url := hres2
        cases hlf : dlookup
            (processFiles cfg ok dirFiles ledger0).uploadedF f.name with
        | none =>
          rw [hlf] at hres3
          exact Option.noConfusion hres3
        | some t =>
          rw [hlf] at hres3
          have heq : some (cfg.pubUrl ++ "/" ++ t) = some url := hres3
          have hu : url = cfg.pubUrl ++ "/" ++ t :=
            (Option.some.injEq _ _ ▸ heq).symm
          exact ⟨f.name, t, hlf, hu⟩
  · simp only [processMatch, hex, hres]

/-- Claim C1, witness: the spec's end-to-end example.  After uploading
`abC123.png`, the image reference resolves to
`https://pub.example/abC123.png`, a recorded target name appended to the
public base, and the image wrapper with its alt text is rebuilt around it. -/
theorem c1_witness :
    (∃ n t, dlookup (processFiles cfg0 (fun _ _ => true) [⟨"abC123.png"⟩]
        ⟨[], []⟩).uploadedF n = some t ∧
      "https://pub.example/abC123.png" = cfg0.pubUrl ++ "/" ++ t) ∧
    processMatch ⟨cfg0.pubUrl,
      (processFiles cfg0 (fun _ _ => true) [⟨"abC123.png"⟩] ⟨[], []⟩).mapping,
      (processFiles cfg0 (fun _ _ => true) [⟨"abC123.png"⟩] ⟨[], []⟩).uploadedF,
      []⟩
      ⟨.image, "diagram",
        "https://firebasestorage.googleapis.com/v0/b/app/o/imgs%2Fapp%2Fxyz%2FabC123.png.enc?alt=media",
        "![diagram](https://firebasestorage.googleapis.com/v0/b/app/o/imgs%2Fapp%2Fxyz%2FabC123.png.enc?alt=media)"⟩
      ("![diagram](https://firebasestorage.googleapis.com/v0/b/app/o/imgs%2Fapp%2Fxyz%2FabC123.png.enc?alt=media)",
        ⟨0, 0, 0, 0, 0, 0⟩, false) =
      (pyReplace
        "![diagram](https://firebasestorage.googleapis.com/v0/b/app/o/imgs%2Fapp%2Fxyz%2FabC123.png.enc?alt=media)"
        "![diagram](https://firebasestorage.googleapis.com/v0/b/app/o/imgs%2Fapp%2Fxyz%2FabC123.png.enc?alt=media)"
        (wrapperText .image "diagram" "https://pub.example/abC123.png"),
       { (⟨0, 0, 0, 0, 0, 0⟩ : Stats) with updated :=
          (⟨0, 0, 0, 0, 0, 0⟩ : Stats).updated + 1 }, true) :=
  c1_confirmed cfg0 (fun _ _ => true) [⟨"abC123.png"⟩] ⟨[], []⟩ []
    ⟨.image, "diagram",
      "https://firebasestorage.googleapis.com/v0/b/app/o/imgs%2Fapp%2Fxyz%2FabC123.png.enc?alt=media",
      "![diagram](https://firebasestorage.googleapis.com/v0/b/app/o/imgs%2Fapp%2Fxyz%2FabC123.png.enc?alt=media)"⟩
    "![diagram](https://firebasestorage.googleapis.com/v0/b/app/o/imgs%2Fapp%2Fxyz%2FabC123.png.enc?alt=media)"
    ⟨0, 0, 0, 0, 0, 0⟩ false "abC123" ".png" "https://pub.example/abC123.png"
    (by decide) (by decide)

/-! ## Claim C10: persisted mapping is rebuilt from scratch each run -/

theorem dlookup_some_dmem {β : Type} {l : Dict β} {k : String} {v : β}
    (h : dlookup l k = some v) : dmem l k = true := by
  by_cases hm : dmem l k = true
  · exact hm
  · have : dlookup l k = none := dmem_false_lookup (by simpa using hm)
    rw [this] at h
    exact Option.noConfusion h

/-- The run-and-snapshot invariant of claim C10, relative to the loaded
`uploaded_files` dict `U0`: every mapping record belongs to a file that
was NOT uploaded by an earlier run and whose ledger entry records its
target name, and every `U0` entry is still present; the same holds inside
every snapshot saved so far. -/
abbrev freshRunInv (U0 : Dict String) (mapping : Dict URecord)
    (uploadedF : Dict String) (saves : List Ledger) : Prop :=
  (∀ k r, dlookup mapping k = some r →
    dlookup U0 r.original_name = none ∧
    dlookup uploadedF r.original_name = some r.target_name) ∧
  (∀ k v, dlookup U0 k = some v → dlookup uploadedF k = some v) ∧
  (∀ s ∈ saves,
    (∀ k r, dlookup s.mapping k = some r →
      dlookup U0 r.original_name = none ∧
      dlookup s.uploaded_files r.original_name = some r.target_name) ∧
    (∀ k v, dlookup U0 k = some v → dlookup s.uploaded_files k = some v))

/-- One loop step preserves the claim C10 invariant. -/
theorem processOne_freshRunInv (cfg : Config) (ok : LFile → String → Bool)
    (idx : Nat) (f : LFile) (st : PState) (U0 : Dict String)
    (hinv : freshRunInv U0 st.mapping st.uploadedF st.saves) :
    freshRunInv U0 (processOne cfg ok idx f st).mapping
      (processOne cfg ok idx f st).uploadedF
      (processOne cfg ok idx f st).saves := by
  obtain ⟨hA, hB, hC⟩ := hinv
  by_cases hs : dmem st.uploadedF f.name = true
  · rw [processOne_skip cfg ok idx f st hs]
    exact ⟨hA, hB, hC⟩
  · have hs' : dmem st.uploadedF f.name = false := by simpa using hs
    have hU0f : dlookup U0 f.name = none := by
      cases hc : dlookup U0 f.name with
      | none => rfl
      | some v =>
        have := hB f.name v hc
        rw [dmem_false_lookup hs'] at this
        exact Option.noConfusion this
    unfold processOne
    simp only [hs', Bool.false_eq_true, if_false]
    cases hok : ok f (targetNameFor cfg f) with
    | true =>
      have hstepA : ∀ k r, dlookup (dinsert (dinsert st.mapping
          (pyReplace f.stem "-image" "")
          ⟨f.name, targetNameFor cfg f,
            cfg.pubUrl ++ "/" ++ targetNameFor cfg f, idx⟩) f.stem
          ⟨f.name, targetNameFor cfg f,
            cfg.pubUrl ++ "/" ++ targetNameFor cfg f, idx⟩) k = some r →
          dlookup U0 r.original_name = none ∧
          dlookup (dinsert st.uploadedF f.name (targetNameFor cfg f))
            r.original_name = some r.target_name := by
        intro k r hkr
        by_cases hk1 : k = f.stem
        · subst hk1
          rw [dlookup_dinsert_self] at hkr
          cases hkr
          exact ⟨hU0f, dlookup_dinsert_self _ _ _⟩
        · rw [dlookup_dinsert_ne _ _ hk1] at hkr
          by_cases hk2 : k = pyReplace f.stem "-image" ""
          · subst hk2
            rw [dlookup_dinsert_self] at hkr
            cases hkr
            exact ⟨hU0f, dlookup_dinsert_self _ _ _⟩
          · rw [dlookup_dinsert_ne _ _ hk2] at hkr
            obtain ⟨hno, hlk⟩ := hA k r hkr
            refine ⟨hno, ?_⟩
            have hne : r.original_name ≠ f.name := by
              intro hc
              rw [hc, dmem_false_lookup hs'] at hlk
              exact Option.noConfusion hlk
            rw [dlookup_dinsert_ne _ _ hne]
            exact hlk
      have hstepB : ∀ k v, dlookup U0 k = some v →
          dlookup (dinsert st.uploadedF f.name (targetNameFor cfg f)) k =
            some v := by
        intro k v hkv
        have hne : k ≠ f.name := by
          intro hc
          rw [hc, hU0f] at hkv
          exact Option.noConfusion hkv
        rw [dlookup_dinsert_ne _ _ hne]
        exact hB k v hkv
      by_cases hb : (idx % cfg.batchSize == 0) = true
      · simp only [hok, if_true, hb, storeSuccess, snapshot]
        refine ⟨hstepA, hstepB, ?_⟩
        intro s hsm
        rcases List.mem_append.mp hsm with hold | hnew
        · exact hC s hold
        · rw [List.mem_singleton] at hnew
          subst hnew
          exact ⟨hstepA, hstepB⟩
      · have hb' : (idx % cfg.batchSize == 0) = false := by simpa using hb
        simp only [hok, if_true, hb', Bool.false_eq_true, if_false,
          storeSuccess]
        exact ⟨hstepA, hstepB, hC⟩
    | false =>
      by_cases hb : (idx % cfg.batchSize == 0) = true
      · simp only [hok, Bool.false_eq_true, if_false, hb, if_true, snapshot]
        refine ⟨hA, hB, ?_⟩
        intro s hsm
        rcases List.mem_append.mp hsm with hold | hnew
        · exact hC s hold
        · rw [List.mem_singleton] at hnew
          subst hnew
          exact ⟨hA, hB⟩
      · have hb' : (idx % cfg.batchSize == 0) = false := by simpa using hb
        simp only [hok, Bool.false_eq_true, if_false, hb']
        exact ⟨hA, hB, hC⟩

/-- The loop preserves the claim C10 invariant. -/
theorem goFiles_freshRunInv (cfg : Config) (ok : LFile → String → Bool)
    (U0 : Dict String) :
    ∀ (fs : List LFile) (idx : Nat) (st : PState),
      freshRunInv U0 st.mapping st.uploadedF st.saves →
      freshRunInv U0 (goFiles cfg ok idx fs st).mapping
        (goFiles cfg ok idx fs st).uploadedF
        (goFiles cfg ok idx fs st).saves
  | [], _, _, h => h
  | f :: fs, idx, st, h =>
    goFiles_freshRunInv cfg ok U0 fs (idx + 1) (processOne cfg ok idx f st)
      (processOne_freshRunInv cfg ok idx f st U0 h)

/-- Claim C10: a run started on a loaded ledger rebuilds `self.mapping`
from scratch — the persisted document is entirely independent of the
loaded `mapping` field — and every saved snapshot's mapping holds only
records of files uploaded during THIS run (their names were absent from
the loaded `uploaded_files` and are recorded with their target names),
while every loaded `uploaded_files` entry is preserved in every snapshot. -/
theorem c10_confirmed (cfg : Config) (ok : LFile → String → Bool)
    (dirFiles : List LFile) (U0 : Dict String) (M0 M0' : Dict URecord) :
    processFiles cfg ok dirFiles ⟨U0, M0⟩ =
      processFiles cfg ok dirFiles ⟨U0, M0'⟩ ∧
    (∀ s ∈ (processFiles cfg ok dirFiles ⟨U0, M0⟩).saves,
      (∀ k r, dlookup s.mapping k = some r →
        dlookup U0 r.original_name = none ∧
        dlookup s.uploaded_files r.original_name = some r.target_name) ∧
      (∀ k v, dlookup U0 k = some v →
        dlookup s.uploaded_files k = some v)) := by
  constructor
  · rfl
  · have hfull : freshRunInv U0
        (processFiles cfg ok dirFiles ⟨U0, M0⟩).mapping
        (processFiles cfg ok dirFiles ⟨U0, M0⟩).uploadedF
        (processFiles cfg ok dirFiles ⟨U0, M0⟩).saves := by
      unfold processFiles
      by_cases hie : (dirFiles.filter (fun f => !(startsW f.name "."))).isEmpty
      · simp only [hie, if_true]
        refine ⟨fun k r hkr => Option.noConfusion hkr, fun k v hkv => hkv, ?_⟩
        intro s hsm
        cases hsm
      · have hie' : (dirFiles.filter
            (fun f => !(startsW f.name "."))).isEmpty = false := by
          simpa using hie
        simp only [hie', Bool.false_eq_true, if_false]
        have hin := goFiles_freshRunInv cfg ok U0
          (dirFiles.filter (fun f => !(startsW f.name "."))) 1
          ⟨[], U0, { total :=
            (dirFiles.filter (fun f => !(startsW f.name "."))).length },
            []⟩
          ⟨fun k r hkr => Option.noConfusion hkr, fun k v hkv => hkv,
            fun s hsm => absurd hsm (List.not_mem_nil s)⟩
        obtain ⟨hA, hB, hC⟩ := hin
        refine ⟨hA, hB, ?_⟩
        intro s hsm
        simp only [snapshot] at hsm
        rcases List.mem_append.mp hsm with hold | hnew
        · exact hC s hold
        · rw [List.mem_singleton] at hnew
          subst hnew
          exact ⟨hA, hB⟩
    exact hfull.2.2

/-- Claim C10, witness: resuming with a stale mapping entry and an old
upload, the single saved snapshot of a one-file run holds only the new
file's record, and the old `uploaded_files` entry survives. -/
theorem c10_witness :
    (⟨[("old.png", "old.png"), ("a.png", "a.png")],
      [("a", ⟨"a.png", "a.png", "https://pub.example/a.png", 1⟩)]⟩ : Ledger) ∈
      (processFiles cfg0 (fun _ _ => true) [⟨"a.png"⟩]
        ⟨[("old.png", "old.png")],
          [("stale", ⟨"s.png", "s.png", "u", 0⟩)]⟩).saves ∧
    ((∀ k r, dlookup
        (⟨[("old.png", "old.png"), ("a.png", "a.png")],
          [("a", ⟨"a.png", "a.png", "https://pub.example/a.png", 1⟩)]⟩ :
          Ledger).mapping k = some r →
        dlookup [("old.png", "old.png")] r.original_name = none ∧
        dlookup (⟨[("old.png", "old.png"), ("a.png", "a.png")],
          [("a", ⟨"a.png", "a.png", "https://pub.example/a.png", 1⟩)]⟩ :
          Ledger).uploaded_files r.original_name = some r.target_name) ∧
      (∀ k v, dlookup [("old.png", "old.png")] k = some v →
        dlookup (⟨[("old.png", "old.png"), ("a.png", "a.png")],
          [("a", ⟨"a.png", "a.png", "https://pub.example/a.png", 1⟩)]⟩ :
          Ledger).uploaded_files k = some v)) := by
  constructor
  · decide
  · exact (c10_confirmed cfg0 (fun _ _ => true) [⟨"a.png"⟩]
      [("old.png", "old.png")] [("stale", ⟨"s.png", "s.png", "u", 0⟩)]
      []).2 _ (by decide)

end RoamMigration
